import Mathlib

/-!
# Verification of the YouTube screenshot capture tools

Shallow embedding of the two Python programs `youtube_batch_processor.py`
and `youtube_screenshots.py`, together with theorems settling the frozen
claims about them.

Modelling conventions:
* A file on disk is an `ImageFile`: its raw bytes together with the decoded
  pixel buffer (`none` when the file cannot be decoded as an image).
  The SHA-256 fingerprint of the raw bytes is modelled as the byte list
  itself (the hash is treated as injective; collisions are out of scope).
* The filesystem is an association list from path (a natural number) to
  `ImageFile`; `os.remove` is `eraseFS`, reading a file is `lookupFS`.
* Durations reported by ffprobe are rationals; the loop variable
  `current_time` of both extraction loops is an integer in the Python code
  (it starts at the int 0 and is incremented by the int interval), so the
  comparison `current_time <= duration` is exact and no floating-point
  rounding is involved.
* External tools (yt-dlp, ffmpeg, ffprobe) are modelled by their observable
  outcomes, passed in as parameters.
-/

/-- One file on disk: raw bytes plus the decoded pixel data
(`none` if the file does not decode to an image). -/
structure ImageFile where
  bytes : List Nat
  pixels : Option (List Nat)
deriving DecidableEq, Repr

/-- The filesystem: an association list from path to file content. -/
abbrev FS := List (Nat × ImageFile)

/-- Reading the file at a path (`none` when the file does not exist). -/
def lookupFS (fs : FS) (p : Nat) : Option ImageFile :=
  match fs with
  | [] => none
  | (q, img) :: rest => if q = p then some img else lookupFS rest p

/-- `os.remove`: delete the entry at a path. -/
def eraseFS (fs : FS) (p : Nat) : FS :=
  fs.filter (fun e => e.1 ≠ p)

/-- `get_image_hash` / the inline `hashlib.sha256(f.read()).hexdigest()`:
the content fingerprint of a file, modelled as the raw bytes themselves
(SHA-256 is treated as injective on byte strings). -/
def get_image_hash (a : ImageFile) : List Nat :=
  a.bytes

/-- `are_images_identical` from youtube_screenshots.py: first compare the
content hashes; if they differ, decode both images to RGB and compare the
pixel arrays (a decode failure makes the comparison return False). -/
def are_images_identical (a b : ImageFile) : Bool :=
  if get_image_hash a = get_image_hash b then true
  else
    match a.pixels, b.pixels with
    | some p, some q => decide (p = q)
    | _, _ => false

/-- The scanning loop of `VideoProcessor.remove_duplicates`
(youtube_batch_processor.py): walk the files in order, skip files already
marked or missing, mark a file whose hash was already seen, otherwise
record its hash. Returns the final marked set (`files_to_remove`),
accumulated in order. -/
def remove_duplicates_scan (fs : FS) : List Nat → List Nat → List (List Nat) → List Nat
  | [], rm, _ => rm
  | f :: rest, rm, seen =>
    if f ∈ rm then remove_duplicates_scan fs rest rm seen
    else
      match lookupFS fs f with
      | none => remove_duplicates_scan fs rest rm seen
      | some img =>
        if get_image_hash img ∈ seen then
          remove_duplicates_scan fs rest (rm ++ [f]) seen
        else
          remove_duplicates_scan fs rest rm (get_image_hash img :: seen)

/-- The deletion loop shared by both deduplicators: try `os.remove` on each
marked file, counting the successful removals. -/
def delete_files (fs : FS) : List Nat → Nat × FS
  | [] => (0, fs)
  | p :: rest =>
    match lookupFS fs p with
    | some _ =>
      let r := delete_files (eraseFS fs p) rest
      (r.1 + 1, r.2)
    | none => delete_files fs rest

/-- `VideoProcessor.remove_duplicates` (youtube_batch_processor.py):
returns the number of files deleted together with the filesystem after the
deletions. Zero or one file is a no-op returning 0. -/
def remove_duplicates (fs : FS) (files : List Nat) : Nat × FS :=
  if files.length ≤ 1 then (0, fs)
  else delete_files fs (remove_duplicates_scan fs files [] [])

/-- The inner loop of `remove_duplicate_screenshots`
(youtube_screenshots.py): compare the current (kept) file against every
later file not yet marked, marking each one `are_images_identical` deems
identical. -/
def inner_compare (fs : FS) (cur : ImageFile) : List Nat → List Nat → List Nat
  | [], rm => rm
  | g :: gs, rm =>
    if g ∈ rm then inner_compare fs cur gs rm
    else
      match lookupFS fs g with
      | none => inner_compare fs cur gs rm
      | some gi =>
        if are_images_identical cur gi then inner_compare fs cur gs (rm ++ [g])
        else inner_compare fs cur gs rm

/-- The scanning loop of `remove_duplicate_screenshots`
(youtube_screenshots.py): like the batch scan, but whenever a file is kept,
its pixel content is additionally compared against every later unmarked
file (`inner_compare`), marking pixel-identical files as well. -/
def remove_duplicate_screenshots_scan (fs : FS) : List Nat → List Nat → List (List Nat) → List Nat
  | [], rm, _ => rm
  | f :: rest, rm, seen =>
    if f ∈ rm then remove_duplicate_screenshots_scan fs rest rm seen
    else
      match lookupFS fs f with
      | none => remove_duplicate_screenshots_scan fs rest rm seen
      | some img =>
        if get_image_hash img ∈ seen then
          remove_duplicate_screenshots_scan fs rest (rm ++ [f]) seen
        else
          remove_duplicate_screenshots_scan fs rest (inner_compare fs img rest rm)
            (get_image_hash img :: seen)

/-- `remove_duplicate_screenshots` (youtube_screenshots.py). -/
def remove_duplicate_screenshots (fs : FS) (files : List Nat) : Nat × FS :=
  if files.length ≤ 1 then (0, fs)
  else delete_files fs (remove_duplicate_screenshots_scan fs files [] [])

/-- The deduplication walk as the spec words it, over the ordered sequence
of (path, fingerprint) pairs: "if the fingerprint has been seen, mark the
artifact for removal; otherwise record it". Returns the marked paths. -/
def spec_removed : List (Nat × List Nat) → List (List Nat) → List Nat
  | [], _ => []
  | (p, h) :: rest, seen =>
    if h ∈ seen then p :: spec_removed rest seen
    else spec_removed rest (h :: seen)

/-- The surviving artifacts as the spec words it: the first-seen holder of
each fingerprint, in first-seen order. -/
def spec_survivors : List (Nat × List Nat) → List (List Nat) → List Nat
  | [], _ => []
  | (p, h) :: rest, seen =>
    if h ∈ seen then spec_survivors rest seen
    else p :: spec_survivors rest (h :: seen)

/-!
## The frame-capture loops

Both `VideoProcessor.extract_screenshots` and
`extract_high_quality_screenshots` step the same grid:
`current_time = 0; while current_time <= duration: capture; current_time
+= interval`. `current_time` stays an exact integer in Python (int plus
int); `duration` is the rational reported by ffprobe. `ok t` is the
outcome of the ffmpeg invocation at timestamp `t` (a failed invocation
raises, aborting the loop, and writes no usable frame).  The single-video
loop additionally computes `progress = (current_time / duration) * 100`
inside the loop after each successful capture, which raises an uncaught
ZeroDivisionError when the reported duration is exactly 0, so the two
loops are modelled separately. -/

/-- The batch loop (`VideoProcessor.extract_screenshots`): the list of
timestamps whose frames were written to disk, paired with whether the
loop ran to completion (`false`: an ffmpeg call raised, caught by the
enclosing handler). -/
def extractAux (ok : Nat → Bool) (D : ℚ) (I : Nat) (hI : 0 < I) (t : Nat) : List Nat × Bool :=
  if h : (t : ℚ) ≤ D then
    if ok t then
      let r := extractAux ok D I hI (t + I)
      (t :: r.1, r.2)
    else ([], false)
  else ([], true)
termination_by (⌊D⌋.toNat + 1) - t
decreasing_by
  have h1 : (t : ℤ) ≤ ⌊D⌋ := Int.le_floor.mpr (by exact_mod_cast h)
  omega

/-- How the single-video capture loop ends. -/
inductive HQLoopExit where
  /-- The loop condition became false: normal completion. -/
  | completed : HQLoopExit
  /-- An ffmpeg call raised `subprocess.CalledProcessError`, caught by
  the function's handler. -/
  | captureError : HQLoopExit
  /-- The in-loop progress computation `(current_time / duration) * 100`
  divided by a zero duration: an uncaught ZeroDivisionError that
  propagates out of the function. -/
  | zeroDivisionError : HQLoopExit
deriving DecidableEq, Repr

/-- The single-video loop (`extract_high_quality_screenshots`): after
each successful capture the frame is recorded and the progress line
computes `(current_time / duration) * 100`, raising ZeroDivisionError
when `duration = 0`.  Returns the frames written to disk and how the
loop exited. -/
def extractHQAux (ok : Nat → Bool) (D : ℚ) (I : Nat) (hI : 0 < I) (t : Nat) :
    List Nat × HQLoopExit :=
  if h : (t : ℚ) ≤ D then
    if ok t then
      if D = 0 then ([t], HQLoopExit.zeroDivisionError)
      else
        let r := extractHQAux ok D I hI (t + I)
        (t :: r.1, r.2)
    else ([], HQLoopExit.captureError)
  else ([], HQLoopExit.completed)
termination_by (⌊D⌋.toNat + 1) - t
decreasing_by
  have h1 : (t : ℤ) ≤ ⌊D⌋ := Int.le_floor.mpr (by exact_mod_cast h)
  omega

/-- `VideoProcessor.extract_screenshots` (youtube_batch_processor.py):
returns (frames written to disk, value returned to the caller). On any
ffmpeg failure the exception handler returns `[]`, discarding the list of
already-written frames but not the frames themselves. -/
def extract_screenshots (ok : Nat → Bool) (D : ℚ) (I : Nat) (hI : 0 < I) :
    List Nat × List Nat :=
  let r := extractAux ok D I hI 0
  (r.1, if r.2 then r.1 else [])

/-- `extract_high_quality_screenshots` (youtube_screenshots.py):
returns (frames written to disk, value returned to the caller).  On
normal completion the caller receives `(screenshots_taken, files)`; a
caught `CalledProcessError` yields `(0, [])`; the in-loop
ZeroDivisionError (duration exactly 0 and a successful first grab) is
not caught by the function's `CalledProcessError`/`ValueError` handlers,
so no value is returned at all (`none`) and the exception propagates to
`main`. -/
def extract_high_quality_screenshots (ok : Nat → Bool) (D : ℚ) (I : Nat) (hI : 0 < I) :
    List Nat × Option (Nat × List Nat) :=
  let r := extractHQAux ok D I hI 0
  (r.1,
    match r.2 with
    | HQLoopExit.completed => some (r.1.length, r.1)
    | HQLoopExit.captureError => some (0, [])
    | HQLoopExit.zeroDivisionError => none)

/-!
## The per-job pipeline (`VideoProcessor.process_video`)
-/

/-- The fields of the per-job result dict that the claims concern
(`duration` and `pdf_created`-independent bookkeeping such as logging are
omitted; `job_id`/`url` are fixed by the caller and modelled in the
scheduler). -/
structure PVResult where
  success : Bool
  error : Option String
  screenshots : Nat
  transcript_saved : Bool
  pdf_created : Bool
deriving DecidableEq, Repr

/-- The on-disk state the claims concern: whether the permanent per-job
`images` directory (under the output root) was created, and its contents. -/
structure PVState where
  images_dir_created : Bool
  images : FS
deriving DecidableEq, Repr

/-- `VideoProcessor.process_video` (youtube_batch_processor.py), with the
external collaborators abstracted: `infoOk` is whether `get_video_info`
succeeded, `downloadOk`/`transcriptOk` the pair returned by
`download_video`, `capOk` the per-timestamp ffmpeg outcome, `content t`
the bytes/pixels of the frame captured at timestamp `t`, and `pdfOk` the
outcome of `create_pdf` on the deduplicated images directory. The images
directory is created after the metadata fetch and before the download;
the video itself lives in an ephemeral temporary directory. -/
def process_video (infoOk downloadOk transcriptOk : Bool) (capOk : Nat → Bool)
    (content : Nat → ImageFile) (no_pdf : Bool) (pdfOk : FS → Bool)
    (D : ℚ) (I : Nat) (hI : 0 < I) : PVResult × PVState :=
  if infoOk = false then
    (⟨false, some "Failed to get video info", 0, false, false⟩, ⟨false, []⟩)
  else if downloadOk = false then
    (⟨false, some "Failed to download video", 0, false, false⟩, ⟨true, []⟩)
  else
    let e := extract_screenshots capOk D I hI
    let fsW : FS := e.1.map fun ts => (ts, content ts)
    if e.2 = [] then
      (⟨false, some "No screenshots extracted", 0, transcriptOk, false⟩, ⟨true, fsW⟩)
    else
      let d := remove_duplicates fsW e.2
      (⟨true, none, e.2.length - d.1, transcriptOk, !no_pdf && pdfOk d.2⟩, ⟨true, d.2⟩)

/-!
## The scheduler (`BatchProcessor`)
-/

/-- What one submitted job does: `process_video_wrapper` either returns a
result dict (whose `job_id` and `url` fields it always fills with its
arguments) or raises. -/
inductive Outcome where
  | returns (success : Bool) (error : Option String) (screenshots : Nat) : Outcome
  | raises (msg : String) : Outcome
deriving DecidableEq, Repr

/-- One job's execution: its wall-clock duration in seconds and its
outcome. -/
structure JobRun where
  duration : Nat
  outcome : Outcome
deriving DecidableEq, Repr

/-- A collected result record. The except-branch of `process_parallel`
builds a dict with only `job_id`, `success` and `error`, so `url` is an
`Option` (`r.get('url')` yields None there) and `screenshots` is read with
default 0. -/
structure JobRecord where
  job_id : Nat
  url : Option String
  success : Bool
  error : Option String
  screenshots : Nat
deriving DecidableEq, Repr

/-- What `future.result(...)` yields. -/
inductive FutResult where
  | value (success : Bool) (error : Option String) (screenshots : Nat) : FutResult
  | exc (msg : String) : FutResult
deriving DecidableEq, Repr

/-- `concurrent.futures.Future.result(timeout)` called at wall-clock time
`callTime` on a future that completes at `completionTime`: it waits up to
`timeoutS` seconds, returning the job's value (or re-raising its
exception) if the future completes by `callTime + timeoutS`, else raising
TimeoutError. -/
def future_result (timeoutS callTime completionTime : Nat) (out : Outcome) : FutResult :=
  if completionTime ≤ callTime + timeoutS then
    match out with
    | .returns s e sc => .value s e sc
    | .raises m => .exc m
  else .exc "TimeoutError"

/-- The job arguments built by `BatchProcessor.process_parallel`:
`(idx + 1, url)` for each input URL, i.e. distinct 1-based job ids. -/
def jobArgs (urls : List String) : List (Nat × String) :=
  urls.enum.map fun p => (p.1 + 1, p.2)

/-- The collection loop of `BatchProcessor.process_parallel`:
`as_completed` yields each submitted future exactly once, in some
completion order (`order`, a permutation of the job arguments), at a call
time no earlier than the future's completion time — so
`future.result(timeout=600)` is evaluated with the future already
complete. A normally returning job yields its dict (with its url); a
raising job yields the except-branch record (no url, screenshots 0). -/
def process_parallel (order : List (Nat × String)) (run : Nat → String → JobRun) :
    List JobRecord :=
  order.map fun j =>
    let r := run j.1 j.2
    match future_result 600 r.duration r.duration r.outcome with
    | .value s e sc => ⟨j.1, some j.2, s, e, sc⟩
    | .exc m => ⟨j.1, none, false, some m, 0⟩

/-- The figures printed by `BatchProcessor.print_summary`: totals, and the
"Failed videos" list showing `r.get('job_id')`, `r.get('url')`,
`r.get('error')` for each unsuccessful record. -/
structure BatchSummary where
  total : Nat
  successful : Nat
  failed : Nat
  total_screenshots : Nat
  failed_entries : List (Nat × Option String × Option String)
deriving DecidableEq, Repr

/-- `BatchProcessor.print_summary`. -/
def print_summary (results : List JobRecord) : BatchSummary :=
  let successful := (results.filter fun r => r.success).length
  { total := results.length
    successful := successful
    failed := results.length - successful
    total_screenshots := (results.map fun r => r.screenshots).sum
    failed_entries := (results.filter fun r => !r.success).map
      fun r => (r.job_id, r.url, r.error) }

/-- How many times a given URL appears in the summary output (URLs are
shown only in the failed-videos list). -/
def summary_url_count (s : BatchSummary) (u : String) : Nat :=
  (s.failed_entries.filter fun e => e.2.1 = some u).length

/-!
## Filename sanitization (`sanitize_filename`, identical in both files)
-/

/-- The characters removed by `sanitize_filename`. -/
def invalid_chars : List Char := ['<', '>', ':', '"', '/', '\\', '|', '?', '*']

/-- The successive `filename.replace(char, '')` calls: each removes every
occurrence of one invalid character. -/
def remove_invalid_chars (s : List Char) : List Char :=
  invalid_chars.foldl (fun acc c => acc.filter (fun d => d ≠ c)) s

/-- The characters stripped from both ends by `filename.strip('. ')`. -/
def strip_chars : List Char := ['.', ' ']

/-- Python's `str.strip('. ')`: drop leading and trailing dots/spaces. -/
def pyStrip (cs : List Char) : List Char :=
  (((cs.dropWhile (fun c => c ∈ strip_chars)).reverse).dropWhile
    (fun c => c ∈ strip_chars)).reverse

/-- `sanitize_filename` on the character list: remove invalid characters,
strip `'. '` from both ends, replace spaces with underscores, truncate to
`max_length = 100`. -/
def sanitizeChars (s : List Char) : List Char :=
  let s1 := remove_invalid_chars s
  let s2 := pyStrip s1
  let s3 := s2.map fun c => if c = ' ' then '_' else c
  if s3.length > 100 then s3.take 100 else s3

/-- `sanitize_filename` (both sources, identical bodies). -/
def sanitize_filename (s : String) : String :=
  String.mk (sanitizeChars s.toList)

/-!
## Command-line entry points
-/

/-- Python's default `str.strip()` on a line (whitespace). -/
def pyStripWs (cs : List Char) : List Char :=
  ((cs.dropWhile Char.isWhitespace).reverse.dropWhile Char.isWhitespace).reverse

/-- `read_urls_from_file`: keep each stripped line that is non-empty and
does not start with the comment marker. -/
def read_urls_from_file (lines : List String) : List String :=
  (lines.map fun l => String.mk (pyStripWs l.toList)).filter
    fun l => decide (l ≠ "") && !(l.startsWith "#")

/-- The mutually exclusive `--url` / `--batch` inputs. -/
inductive CliInput where
  | url (u : String) : CliInput
  | batch (lines : List String) : CliInput

/-- The exit status of `main` in youtube_batch_processor.py:
`sys.exit(1)` when dependencies are missing, when the interval is not
positive, or when the batch file yields no usable URLs; otherwise the
process reaches the end of `main` and exits 0 — including when the sole
job of a `--url` run fails (`soleJobSuccess = false` only changes what is
printed) and when jobs of a multi-URL batch fail. -/
def batch_main_exit (depsOk : Bool) (interval : ℤ) (inp : CliInput)
    (soleJobSuccess : Bool) : Nat :=
  if depsOk = false then 1
  else if interval ≤ 0 then 1
  else
    match inp with
    | .url _ => 0
    | .batch lines => if (read_urls_from_file lines).isEmpty then 1 else 0

/-- The exit status of `main` in youtube_screenshots.py: `sys.exit(1)`
when the interval is not positive, dependencies are missing, the metadata
fetch fails, or the download fails.  `extraction` is the value the
`extract_high_quality_screenshots` call produced (its `.2` projection):
`none` means that call raised an uncaught exception (the in-loop
ZeroDivisionError at duration 0), which `main` does not catch, so the
interpreter exits non-zero with a traceback; `some (count, files)` flows
into the `if screenshot_count > 0` test, with `sys.exit(1)` on a zero
count. -/
def screenshots_main_exit (interval : ℤ) (depsOk infoOk downloadOk : Bool)
    (extraction : Option (Nat × List Nat)) : Nat :=
  if interval ≤ 0 then 1
  else if depsOk = false then 1
  else if infoOk = false then 1
  else if downloadOk = false then 1
  else
    match extraction with
    | none => 1
    | some (count, _) => if count = 0 then 1 else 0

/-!
## Worker-count configuration
-/

/-- `BatchProcessor.__init__`: `self.num_workers = min(mp.cpu_count(),
len(urls))`. -/
def BatchProcessor_init_num_workers (cpu n : Nat) : Nat :=
  min cpu n

/-- `main`: `num_workers = args.workers if args.workers > 0 else
mp.cpu_count()` (uncapped). -/
def main_num_workers (argsWorkers cpu : Nat) : Nat :=
  if 0 < argsWorkers then argsWorkers else cpu

/-- The worker count the pool is actually created with for a multi-URL
batch: `main` unconditionally executes `batch_processor.num_workers =
num_workers` after construction, overwriting the capped value from
`__init__`; `n` (the number of URLs) does not enter. -/
def main_pool_workers (argsWorkers cpu n : Nat) : Nat :=
  main_num_workers argsWorkers cpu

/-!
## Concrete instances used by counterexamples and witnesses
-/

/-- Two files with different raw bytes whose decoded pixel buffers agree
(e.g. the same frame encoded twice with different metadata). -/
def fsPixelPair : FS :=
  [(0, ImageFile.mk [1] (some [7])), (1, ImageFile.mk [2] (some [7]))]

/-- Three files at paths 0, 1, 2 where paths 0 and 2 are byte-identical. -/
def fsDupTriple : List (Nat × ImageFile) :=
  [(0, ImageFile.mk [1] (some [1])), (1, ImageFile.mk [2] (some [2])),
   (2, ImageFile.mk [1] (some [1]))]

/-- The conclusion of claim C1 as amended, for an artifact sequence
`l.map Prod.fst` whose file contents are listed in `l`.
For the batch deduplicator (`remove_duplicates`): the count returned is
the number of marked artifacts, exactly the artifacts in `spec_removed`
(those whose fingerprint occurred earlier) are deleted, the files split
into removed plus surviving ones, the survivors (first-seen holder of
each fingerprint) keep their input order, and an artifact is removed iff
an earlier artifact has the same fingerprint.
For the single-video deduplicator (`remove_duplicate_screenshots`): the
count returned is the number of files deleted, exactly the files marked
by its scan are deleted, and a file byte-identical to any earlier file is
always deleted — but the marked set may be larger than the
fingerprint-duplicates (see the counterexample): pixel-identical files
with distinct fingerprints are deleted too. -/
def dedupe_first_seen_spec (fs : FS) (l : List (Nat × ImageFile)) : Prop :=
  (remove_duplicates fs (l.map Prod.fst)).1
      = (spec_removed (l.map fun e => (e.1, e.2.bytes)) []).length
  ∧ (∀ q, lookupFS (remove_duplicates fs (l.map Prod.fst)).2 q
      = if q ∈ spec_removed (l.map fun e => (e.1, e.2.bytes)) [] then none
        else lookupFS fs q)
  ∧ List.Perm (l.map Prod.fst)
      (spec_removed (l.map fun e => (e.1, e.2.bytes)) []
        ++ spec_survivors (l.map fun e => (e.1, e.2.bytes)) [])
  ∧ List.Sublist (spec_survivors (l.map fun e => (e.1, e.2.bytes)) [])
      (l.map Prod.fst)
  ∧ (∀ j (hj : j < l.length),
      ((l.get ⟨j, hj⟩).1 ∈ spec_removed (l.map fun e => (e.1, e.2.bytes)) []
        ↔ (l.get ⟨j, hj⟩).2.bytes
            ∈ ((l.map fun e => (e.1, e.2.bytes)).take j).map Prod.snd))
  ∧ (remove_duplicate_screenshots fs (l.map Prod.fst)).1
      = (remove_duplicate_screenshots_scan fs (l.map Prod.fst) [] []).length
  ∧ (∀ q, lookupFS (remove_duplicate_screenshots fs (l.map Prod.fst)).2 q
      = if q ∈ remove_duplicate_screenshots_scan fs (l.map Prod.fst) [] []
        then none else lookupFS fs q)
  ∧ (∀ (u : List Nat) x (v : List Nat) y, l.map Prod.fst = u ++ x :: v →
      y ∈ v → ∀ xi yi, lookupFS fs x = some xi → lookupFS fs y = some yi →
        xi.bytes = yi.bytes →
        lookupFS (remove_duplicate_screenshots fs (l.map Prod.fst)).2 y = none)

/-!
# Theorems

## Basic filesystem lemmas
-/

theorem lookupFS_eraseFS (fs : FS) (p q : Nat) :
    lookupFS (eraseFS fs p) q = if q = p then none else lookupFS fs q := by
  induction fs with
  | nil => simp [lookupFS, eraseFS]
  | cons e rest ih =>
    obtain ⟨a, img⟩ := e
    by_cases hap : a = p
    · subst hap
      by_cases hqp : q = a
      · subst hqp
        simp_all [eraseFS, lookupFS, List.filter_cons]
      · have haq : a ≠ q := fun h => hqp h.symm
        simp_all [eraseFS, lookupFS, List.filter_cons]
    · by_cases haq : a = q
      · subst haq
        simp_all [eraseFS, lookupFS, List.filter_cons]
      · simp_all [eraseFS, lookupFS, List.filter_cons]

theorem lookupFS_mem (fs : FS) (p : Nat) (img : ImageFile)
    (h : lookupFS fs p = some img) : (p, img) ∈ fs := by
  induction fs with
  | nil => simp [lookupFS] at h
  | cons e rest ih =>
    obtain ⟨a, b⟩ := e
    simp only [lookupFS] at h
    by_cases hap : a = p
    · subst hap
      simp only [if_pos rfl] at h
      obtain rfl : b = img := by injection h
      exact List.mem_cons_self _ _
    · rw [if_neg hap] at h
      exact List.mem_cons_of_mem _ (ih h)

theorem delete_files_spec (rm : List Nat) : ∀ (fs : FS), rm.Nodup →
    (∀ p ∈ rm, lookupFS fs p ≠ none) →
    (delete_files fs rm).1 = rm.length ∧
    ∀ q, lookupFS (delete_files fs rm).2 q =
      if q ∈ rm then none else lookupFS fs q := by
  induction rm with
  | nil =>
    intro fs _ _
    simp [delete_files]
  | cons p rest ih =>
    intro fs hnd hex
    have hp : lookupFS fs p ≠ none := hex p (List.mem_cons_self _ _)
    obtain ⟨img, himg⟩ := Option.ne_none_iff_exists'.mp hp
    have hprest : p ∉ rest := (List.nodup_cons.mp hnd).1
    have hex' : ∀ x ∈ rest, lookupFS (eraseFS fs p) x ≠ none := by
      intro x hx
      have hxp : x ≠ p := fun hc => hprest (hc ▸ hx)
      rw [lookupFS_eraseFS, if_neg hxp]
      exact hex x (List.mem_cons_of_mem _ hx)
    obtain ⟨ih1, ih2⟩ := ih (eraseFS fs p) (List.nodup_cons.mp hnd).2 hex'
    simp only [delete_files, himg]
    refine ⟨by simp [ih1], ?_⟩
    intro q
    rw [ih2 q, lookupFS_eraseFS]
    by_cases hq1 : q ∈ rest
    · simp [hq1]
    · by_cases hq2 : q = p <;> simp [hq1, hq2]

/-!
## Lemmas about `are_images_identical`
-/

theorem are_images_identical_of_bytes (a b : ImageFile) (h : a.bytes = b.bytes) :
    are_images_identical a b = true := by
  simp [are_images_identical, get_image_hash, h]

theorem are_images_identical_of_pixels (a b : ImageFile) (P : List Nat)
    (ha : a.pixels = some P) (hb : b.pixels = some P) :
    are_images_identical a b = true := by
  simp only [are_images_identical, get_image_hash]
  split
  · rfl
  · rw [ha, hb]
    simp

theorem bytes_ne_of_not_identical (a b : ImageFile)
    (h : are_images_identical a b = false) : a.bytes ≠ b.bytes := by
  intro hc
  rw [are_images_identical_of_bytes a b hc] at h
  cases h

theorem are_images_identical_cases (a b : ImageFile)
    (h : are_images_identical a b = true) :
    a.bytes = b.bytes ∨ ∃ P, a.pixels = some P ∧ b.pixels = some P := by
  by_cases hby : a.bytes = b.bytes
  · exact Or.inl hby
  · right
    simp only [are_images_identical, get_image_hash, if_neg hby] at h
    rcases ha : a.pixels with _ | P <;> rcases hb : b.pixels with _ | Q <;>
      rw [ha, hb] at h <;> simp at h
    exact ⟨P, rfl, by rw [h]⟩

/-!
## The batch deduplicator (`VideoProcessor.remove_duplicates`)
-/

theorem remove_duplicates_scan_eq_spec (fs : FS) (l : List (Nat × ImageFile)) :
    ∀ rm seen,
    (∀ e ∈ l, lookupFS fs e.1 = some e.2) →
    (l.map Prod.fst).Nodup →
    (∀ e ∈ l, e.1 ∉ rm) →
    remove_duplicates_scan fs (l.map Prod.fst) rm seen
      = rm ++ spec_removed (l.map fun e => (e.1, e.2.bytes)) seen := by
  induction l with
  | nil =>
    intro rm seen _ _ _
    simp [remove_duplicates_scan, spec_removed]
  | cons e rest ih =>
    intro rm seen hl hnd hdisj
    obtain ⟨p, img⟩ := e
    have hp : lookupFS fs p = some img := hl _ (List.mem_cons_self _ _)
    have hpnotrm : p ∉ rm := hdisj (p, img) (List.mem_cons_self _ _)
    have hndc : p ∉ rest.map Prod.fst ∧ (rest.map Prod.fst).Nodup :=
      List.nodup_cons.mp hnd
    have hpfst : p ∉ rest.map Prod.fst := hndc.1
    have hl' : ∀ e ∈ rest, lookupFS fs e.1 = some e.2 :=
      fun e he => hl e (List.mem_cons_of_mem _ he)
    have hnd' : (rest.map Prod.fst).Nodup := hndc.2
    simp only [List.map_cons, remove_duplicates_scan, spec_removed,
      if_neg hpnotrm, hp, get_image_hash]
    by_cases hseen : img.bytes ∈ seen
    · rw [if_pos hseen, if_pos hseen]
      rw [ih (rm ++ [p]) seen hl' hnd' ?_]
      · simp
      · intro e he
        have h1 : e.1 ∉ rm := hdisj e (List.mem_cons_of_mem _ he)
        have h2 : e.1 ≠ p := by
          intro hc
          exact hpfst (hc ▸ List.mem_map_of_mem Prod.fst he)
        simp [h1, h2]
    · rw [if_neg hseen, if_neg hseen]
      exact ih rm (img.bytes :: seen) hl' hnd'
        (fun e he => hdisj e (List.mem_cons_of_mem _ he))

theorem spec_removed_sublist (l : List (Nat × List Nat)) :
    ∀ seen, List.Sublist (spec_removed l seen) (l.map Prod.fst) := by
  induction l with
  | nil => intro seen; simp [spec_removed]
  | cons e rest ih =>
    intro seen
    obtain ⟨p, h⟩ := e
    simp only [spec_removed, List.map_cons]
    by_cases hs : h ∈ seen
    · rw [if_pos hs]
      exact (ih seen).cons₂ p
    · rw [if_neg hs]
      exact (ih (h :: seen)).cons p

theorem spec_survivors_sublist (l : List (Nat × List Nat)) :
    ∀ seen, List.Sublist (spec_survivors l seen) (l.map Prod.fst) := by
  induction l with
  | nil => intro seen; simp [spec_survivors]
  | cons e rest ih =>
    intro seen
    obtain ⟨p, h⟩ := e
    simp only [spec_survivors, List.map_cons]
    by_cases hs : h ∈ seen
    · rw [if_pos hs]
      exact (ih seen).cons p
    · rw [if_neg hs]
      exact (ih (h :: seen)).cons₂ p

theorem spec_removed_survivors_perm (l : List (Nat × List Nat)) :
    ∀ seen, List.Perm (l.map Prod.fst)
      (spec_removed l seen ++ spec_survivors l seen) := by
  induction l with
  | nil => intro seen; simp [spec_removed, spec_survivors]
  | cons e rest ih =>
    intro seen
    obtain ⟨p, h⟩ := e
    simp only [spec_removed, spec_survivors, List.map_cons]
    by_cases hs : h ∈ seen
    · rw [if_pos hs, if_pos hs]
      exact (ih seen).cons p
    · rw [if_neg hs, if_neg hs]
      exact ((ih (h :: seen)).cons p).trans List.perm_middle.symm

theorem spec_removed_mem_iff (l : List (Nat × List Nat)) :
    ∀ seen, (l.map Prod.fst).Nodup → ∀ j (hj : j < l.length),
      ((l.get ⟨j, hj⟩).1 ∈ spec_removed l seen ↔
        ((l.get ⟨j, hj⟩).2 ∈ seen ∨
          (l.get ⟨j, hj⟩).2 ∈ (l.take j).map Prod.snd)) := by
  induction l with
  | nil =>
    intro seen _ j hj
    simp at hj
  | cons e rest ih =>
    intro seen hnd j hj
    obtain ⟨p, h⟩ := e
    have hnds : p ∉ rest.map Prod.fst ∧ (rest.map Prod.fst).Nodup :=
      List.nodup_cons.mp hnd
    cases j with
    | zero =>
      by_cases hs : h ∈ seen
      · simp [spec_removed, hs]
      · have hnp : p ∉ spec_removed rest (h :: seen) := by
          intro hc
          exact hnds.1 ((spec_removed_sublist rest (h :: seen)).subset hc)
        simp [spec_removed, hs, hnp]
    | succ j =>
      have hj' : j < rest.length := by simpa using hj
      have hgetmem : (rest.get ⟨j, hj'⟩).1 ∈ rest.map Prod.fst :=
        List.mem_map_of_mem Prod.fst (rest.get_mem j hj')
      have hqp : (rest.get ⟨j, hj'⟩).1 ≠ p := by
        intro hc
        exact hnds.1 (hc ▸ hgetmem)
      have hget : ((p, h) :: rest).get ⟨j + 1, hj⟩ = rest.get ⟨j, hj'⟩ := rfl
      rw [hget]
      have htake : (((p, h) :: rest).take (j + 1)).map Prod.snd
          = h :: (rest.take j).map Prod.snd := by
        simp [List.take_succ_cons]
      rw [htake]
      by_cases hs : h ∈ seen
      · simp only [spec_removed, if_pos hs, List.mem_cons]
        rw [ih seen hnds.2 j hj']
        have hgh : (rest.get ⟨j, hj'⟩).2 = h → (rest.get ⟨j, hj'⟩).2 ∈ seen :=
          fun hc => hc ▸ hs
        tauto
      · simp only [spec_removed, if_neg hs, List.mem_cons]
        rw [ih (h :: seen) hnds.2 j hj']
        simp only [List.mem_cons]
        tauto

theorem nodup_append_singleton {rm : List Nat} {f : Nat}
    (hnd : rm.Nodup) (hf : f ∉ rm) : (rm ++ [f]).Nodup := by
  simp [List.nodup_append, hnd, hf]

theorem remove_duplicates_scan_mono (fs : FS) (files : List Nat) :
    ∀ rm seen y, y ∈ rm → y ∈ remove_duplicates_scan fs files rm seen := by
  induction files with
  | nil =>
    intro rm seen y hy
    simpa [remove_duplicates_scan] using hy
  | cons f rest ih =>
    intro rm seen y hy
    simp only [remove_duplicates_scan]
    split
    · exact ih _ _ y hy
    · split
      · exact ih _ _ y hy
      · split
        · exact ih _ _ y (List.mem_append_left _ hy)
        · exact ih _ _ y hy

theorem remove_duplicates_scan_seen (fs : FS) (files : List Nat) :
    ∀ rm seen x img, x ∈ files → lookupFS fs x = some img →
      get_image_hash img ∈ seen →
      x ∈ remove_duplicates_scan fs files rm seen := by
  induction files with
  | nil =>
    intro rm seen x img hx
    simp at hx
  | cons f rest ih =>
    intro rm seen x img hx hlook hseen
    rcases List.mem_cons.mp hx with rfl | hx'
    · by_cases hf : x ∈ rm
      · simp only [remove_duplicates_scan, if_pos hf]
        exact remove_duplicates_scan_mono fs rest rm seen x hf
      · simp only [remove_duplicates_scan, if_neg hf, hlook, if_pos hseen]
        exact remove_duplicates_scan_mono fs rest _ seen x
          (List.mem_append_right _ (List.mem_singleton_self x))
    · simp only [remove_duplicates_scan]
      split
      · exact ih _ _ x img hx' hlook hseen
      · split
        · exact ih _ _ x img hx' hlook hseen
        · split
          · exact ih _ _ x img hx' hlook hseen
          · exact ih _ _ x img hx' hlook (List.mem_cons_of_mem _ hseen)

theorem remove_duplicates_scan_nodup (fs : FS) (files : List Nat) :
    ∀ rm seen, rm.Nodup → (remove_duplicates_scan fs files rm seen).Nodup := by
  induction files with
  | nil =>
    intro rm seen hnd
    simpa [remove_duplicates_scan] using hnd
  | cons f rest ih =>
    intro rm seen hnd
    simp only [remove_duplicates_scan]
    split
    · exact ih _ _ hnd
    · next hf =>
      split
      · exact ih _ _ hnd
      · split
        · exact ih _ _ (nodup_append_singleton hnd hf)
        · exact ih _ _ hnd

theorem remove_duplicates_scan_present (fs : FS) (files : List Nat) :
    ∀ rm seen, (∀ p ∈ rm, lookupFS fs p ≠ none) →
      ∀ p ∈ remove_duplicates_scan fs files rm seen, lookupFS fs p ≠ none := by
  induction files with
  | nil =>
    intro rm seen hex p hp
    exact hex p (by simpa [remove_duplicates_scan] using hp)
  | cons f rest ih =>
    intro rm seen hex
    simp only [remove_duplicates_scan]
    split
    · exact ih _ _ hex
    · split
      · exact ih _ _ hex
      · next img hlook =>
        split
        · refine ih _ _ ?_
          intro p hp
          rcases List.mem_append.mp hp with hp1 | hp2
          · exact hex p hp1
          · rw [List.mem_singleton.mp hp2, hlook]
            simp
        · exact ih _ _ hex

theorem remove_duplicates_scan_survivors (fs : FS) :
    ∀ (u : List Nat) (v : List Nat) rm seen x y xi yi, y ∈ v →
      lookupFS fs x = some xi → lookupFS fs y = some yi →
      x ∉ remove_duplicates_scan fs (u ++ x :: v) rm seen →
      y ∉ remove_duplicates_scan fs (u ++ x :: v) rm seen →
      xi.bytes ≠ yi.bytes := by
  intro u
  induction u with
  | nil =>
    intro v rm seen x y xi yi hy hx hyl hxn hyn
    have hxrm : x ∉ rm := fun hc =>
      hxn (remove_duplicates_scan_mono fs _ rm seen x hc)
    have hxseen : ¬ get_image_hash xi ∈ seen := fun hc =>
      hxn (remove_duplicates_scan_seen fs _ rm seen x xi
        (List.mem_cons_self _ _) hx hc)
    have hstep : remove_duplicates_scan fs ([] ++ x :: v) rm seen
        = remove_duplicates_scan fs v rm (get_image_hash xi :: seen) := by
      simp only [List.nil_append, remove_duplicates_scan, if_neg hxrm, hx,
        if_neg hxseen]
    intro hbytes
    apply hyn
    rw [hstep]
    refine remove_duplicates_scan_seen fs v rm _ y yi hy hyl ?_
    have : get_image_hash yi = get_image_hash xi := by
      simp [get_image_hash, hbytes]
    rw [this]
    exact List.mem_cons_self _ _
  | cons a u' ih =>
    intro v rm seen x y xi yi hy hx hyl hxn hyn
    by_cases ha : a ∈ rm
    · have hstep : remove_duplicates_scan fs ((a :: u') ++ x :: v) rm seen
          = remove_duplicates_scan fs (u' ++ x :: v) rm seen := by
        simp only [List.cons_append, remove_duplicates_scan, if_pos ha]
        rfl
      exact ih v rm seen x y xi yi hy hx hyl (hstep ▸ hxn) (hstep ▸ hyn)
    · cases hlook : lookupFS fs a with
      | none =>
        have hstep : remove_duplicates_scan fs ((a :: u') ++ x :: v) rm seen
            = remove_duplicates_scan fs (u' ++ x :: v) rm seen := by
          simp only [List.cons_append, remove_duplicates_scan, if_neg ha, hlook]
          rfl
        exact ih v rm seen x y xi yi hy hx hyl (hstep ▸ hxn) (hstep ▸ hyn)
      | some ai =>
        by_cases hs : get_image_hash ai ∈ seen
        · have hstep : remove_duplicates_scan fs ((a :: u') ++ x :: v) rm seen
              = remove_duplicates_scan fs (u' ++ x :: v) (rm ++ [a]) seen := by
            simp only [List.cons_append, remove_duplicates_scan, if_neg ha,
              hlook, if_pos hs]
            rfl
          exact ih v _ seen x y xi yi hy hx hyl (hstep ▸ hxn) (hstep ▸ hyn)
        · have hstep : remove_duplicates_scan fs ((a :: u') ++ x :: v) rm seen
              = remove_duplicates_scan fs (u' ++ x :: v) rm
                  (get_image_hash ai :: seen) := by
            simp only [List.cons_append, remove_duplicates_scan, if_neg ha,
              hlook, if_neg hs]
            rfl
          exact ih v rm _ x y xi yi hy hx hyl (hstep ▸ hxn) (hstep ▸ hyn)

theorem remove_duplicates_scan_of_unique (fs' : FS) (files : List Nat) :
    ∀ rm seen,
    (∀ x ∈ files, ∀ xi, lookupFS fs' x = some xi → xi.bytes ∉ seen) →
    (∀ (u : List Nat) x (v : List Nat) y, files = u ++ x :: v → y ∈ v →
      ∀ xi yi, lookupFS fs' x = some xi → lookupFS fs' y = some yi →
        xi.bytes ≠ yi.bytes) →
    remove_duplicates_scan fs' files rm seen = rm := by
  induction files with
  | nil =>
    intro rm seen _ _
    simp [remove_duplicates_scan]
  | cons f rest ih =>
    intro rm seen h1 h2
    have h1' : ∀ x ∈ rest, ∀ xi, lookupFS fs' x = some xi → xi.bytes ∉ seen :=
      fun x hx xi hxi => h1 x (List.mem_cons_of_mem _ hx) xi hxi
    have h2' : ∀ (u : List Nat) x (v : List Nat) y, rest = u ++ x :: v →
        y ∈ v → ∀ xi yi, lookupFS fs' x = some xi → lookupFS fs' y = some yi →
        xi.bytes ≠ yi.bytes := by
      intro u x v y hdecomp hy xi yi hxl hyl
      exact h2 (f :: u) x v y (by rw [hdecomp]; rfl) hy xi yi hxl hyl
    simp only [remove_duplicates_scan]
    split
    · exact ih rm seen h1' h2'
    · split
      · exact ih rm seen h1' h2'
      · next fi hlook =>
        split
        · next hs =>
          exact absurd hs (h1 f (List.mem_cons_self _ _) fi hlook)
        · next hs =>
          refine ih rm _ ?_ h2'
          intro x hx xi hxi
          have hne : fi.bytes ≠ xi.bytes :=
            h2 [] f rest x rfl hx fi xi hlook hxi
          simp only [get_image_hash, List.mem_cons]
          rintro (hc | hc)
          · exact hne hc.symm
          · exact h1' x hx xi hxi hc

theorem remove_duplicates_second_run (fs : FS) (files : List Nat) :
    remove_duplicates ((remove_duplicates fs files).2) files
      = (0, (remove_duplicates fs files).2) := by
  by_cases hlen : files.length ≤ 1
  · simp [remove_duplicates, hlen]
  · have hnd1 : (remove_duplicates_scan fs files [] []).Nodup :=
      remove_duplicates_scan_nodup fs files [] [] List.nodup_nil
    have hex1 : ∀ p ∈ remove_duplicates_scan fs files [] [],
        lookupFS fs p ≠ none :=
      remove_duplicates_scan_present fs files [] [] (by simp)
    obtain ⟨hc1, hchar⟩ :=
      delete_files_spec (remove_duplicates_scan fs files [] []) fs hnd1 hex1
    have hres : remove_duplicates fs files
        = delete_files fs (remove_duplicates_scan fs files [] []) := by
      simp [remove_duplicates, hlen]
    have hsplit : ∀ q xi,
        lookupFS (remove_duplicates fs files).2 q = some xi →
        q ∉ remove_duplicates_scan fs files [] [] ∧ lookupFS fs q = some xi := by
      intro q xi hq
      rw [hres, hchar q] at hq
      by_cases hqr : q ∈ remove_duplicates_scan fs files [] []
      · rw [if_pos hqr] at hq
        cases hq
      · rw [if_neg hqr] at hq
        exact ⟨hqr, hq⟩
    have hscan2 : remove_duplicates_scan (remove_duplicates fs files).2 files [] []
        = [] := by
      apply remove_duplicates_scan_of_unique
      · intro x _ xi _
        simp
      · intro u x v y hdecomp hy xi yi hxlook hylook
        obtain ⟨hxr, hxfs⟩ := hsplit x xi hxlook
        obtain ⟨hyr, hyfs⟩ := hsplit y yi hylook
        rw [hdecomp] at hxr hyr
        exact remove_duplicates_scan_survivors fs u v [] [] x y xi yi
          hy hxfs hyfs hxr hyr
    rw [hres] at hscan2
    simp [remove_duplicates, hlen, hscan2, delete_files]

/-!
## The single-video deduplicator (`remove_duplicate_screenshots`)
-/

theorem inner_compare_mem_iff (fs : FS) (cur : ImageFile) (gs : List Nat) :
    ∀ rm y, y ∈ inner_compare fs cur gs rm ↔
      (y ∈ rm ∨ (y ∈ gs ∧ ∃ gi, lookupFS fs y = some gi ∧
        are_images_identical cur gi = true)) := by
  induction gs with
  | nil =>
    intro rm y
    simp [inner_compare]
  | cons g rest ih =>
    intro rm y
    simp only [inner_compare]
    by_cases hg : g ∈ rm
    · rw [if_pos hg, ih]
      simp only [List.mem_cons]
      constructor
      · rintro (hrm | ⟨hyrest, hP⟩)
        · exact Or.inl hrm
        · exact Or.inr ⟨Or.inr hyrest, hP⟩
      · rintro (hrm | ⟨(rfl | hyrest), hP⟩)
        · exact Or.inl hrm
        · exact Or.inl hg
        · exact Or.inr ⟨hyrest, hP⟩
    · rw [if_neg hg]
      split
      next hnone =>
        rw [ih]
        simp only [List.mem_cons]
        constructor
        · rintro (hrm | ⟨hyrest, hP⟩)
          · exact Or.inl hrm
          · exact Or.inr ⟨Or.inr hyrest, hP⟩
        · rintro (hrm | ⟨(rfl | hyrest), gi, hgi, hid⟩)
          · exact Or.inl hrm
          · rw [hnone] at hgi
            cases hgi
          · exact Or.inr ⟨hyrest, gi, hgi, hid⟩
      next gi hlook =>
        by_cases hid : are_images_identical cur gi = true
        · rw [if_pos hid, ih]
          simp only [List.mem_append, List.mem_cons, List.not_mem_nil, or_false]
          constructor
          · rintro ((hrm | rfl) | ⟨hyrest, hP⟩)
            · exact Or.inl hrm
            · exact Or.inr ⟨Or.inl rfl, gi, hlook, hid⟩
            · exact Or.inr ⟨Or.inr hyrest, hP⟩
          · rintro (hrm | ⟨(rfl | hyrest), hP⟩)
            · exact Or.inl (Or.inl hrm)
            · exact Or.inl (Or.inr rfl)
            · exact Or.inr ⟨hyrest, hP⟩
        · rw [if_neg hid, ih]
          simp only [List.mem_cons]
          constructor
          · rintro (hrm | ⟨hyrest, hP⟩)
            · exact Or.inl hrm
            · exact Or.inr ⟨Or.inr hyrest, hP⟩
          · rintro (hrm | ⟨(rfl | hyrest), gi2, hgi2, hid2⟩)
            · exact Or.inl hrm
            · rw [hlook] at hgi2
              obtain rfl : gi = gi2 := by injection hgi2
              exact absurd hid2 hid
            · exact Or.inr ⟨hyrest, gi2, hgi2, hid2⟩

theorem inner_compare_mono (fs : FS) (cur : ImageFile) (gs : List Nat)
    (rm : List Nat) (y : Nat) (hy : y ∈ rm) : y ∈ inner_compare fs cur gs rm :=
  (inner_compare_mem_iff fs cur gs rm y).mpr (Or.inl hy)

theorem inner_compare_nodup (fs : FS) (cur : ImageFile) (gs : List Nat) :
    ∀ rm, rm.Nodup → (inner_compare fs cur gs rm).Nodup := by
  induction gs with
  | nil =>
    intro rm hnd
    simpa [inner_compare] using hnd
  | cons g rest ih =>
    intro rm hnd
    simp only [inner_compare]
    split
    · exact ih _ hnd
    · next hg =>
      split
      · exact ih _ hnd
      · split
        · exact ih _ (nodup_append_singleton hnd hg)
        · exact ih _ hnd

theorem inner_compare_present (fs : FS) (cur : ImageFile) (gs : List Nat)
    (rm : List Nat) (hex : ∀ p ∈ rm, lookupFS fs p ≠ none) :
    ∀ p ∈ inner_compare fs cur gs rm, lookupFS fs p ≠ none := by
  intro p hp
  rcases (inner_compare_mem_iff fs cur gs rm p).mp hp with h | ⟨_, gi, hgi, _⟩
  · exact hex p h
  · rw [hgi]
    simp

theorem remove_duplicate_screenshots_scan_mono (fs : FS) (files : List Nat) :
    ∀ rm seen y, y ∈ rm →
      y ∈ remove_duplicate_screenshots_scan fs files rm seen := by
  induction files with
  | nil =>
    intro rm seen y hy
    simpa [remove_duplicate_screenshots_scan] using hy
  | cons f rest ih =>
    intro rm seen y hy
    simp only [remove_duplicate_screenshots_scan]
    split
    · exact ih _ _ y hy
    · split
      · exact ih _ _ y hy
      · split
        · exact ih _ _ y (List.mem_append_left _ hy)
        · exact ih _ _ y (inner_compare_mono fs _ rest rm y hy)

theorem remove_duplicate_screenshots_scan_seen (fs : FS) (files : List Nat) :
    ∀ rm seen x img, x ∈ files → lookupFS fs x = some img →
      get_image_hash img ∈ seen →
      x ∈ remove_duplicate_screenshots_scan fs files rm seen := by
  induction files with
  | nil =>
    intro rm seen x img hx
    simp at hx
  | cons f rest ih =>
    intro rm seen x img hx hlook hseen
    rcases List.mem_cons.mp hx with rfl | hx'
    · by_cases hf : x ∈ rm
      · simp only [remove_duplicate_screenshots_scan, if_pos hf]
        exact remove_duplicate_screenshots_scan_mono fs rest rm seen x hf
      · simp only [remove_duplicate_screenshots_scan, if_neg hf, hlook,
          if_pos hseen]
        exact remove_duplicate_screenshots_scan_mono fs rest _ seen x
          (List.mem_append_right _ (List.mem_singleton_self x))
    · simp only [remove_duplicate_screenshots_scan]
      split
      · exact ih _ _ x img hx' hlook hseen
      · split
        · exact ih _ _ x img hx' hlook hseen
        · split
          · exact ih _ _ x img hx' hlook hseen
          · exact ih _ _ x img hx' hlook (List.mem_cons_of_mem _ hseen)

theorem remove_duplicate_screenshots_scan_nodup (fs : FS) (files : List Nat) :
    ∀ rm seen, rm.Nodup →
      (remove_duplicate_screenshots_scan fs files rm seen).Nodup := by
  induction files with
  | nil =>
    intro rm seen hnd
    simpa [remove_duplicate_screenshots_scan] using hnd
  | cons f rest ih =>
    intro rm seen hnd
    simp only [remove_duplicate_screenshots_scan]
    split
    · exact ih _ _ hnd
    · next hf =>
      split
      · exact ih _ _ hnd
      · split
        · exact ih _ _ (nodup_append_singleton hnd hf)
        · exact ih _ _ (inner_compare_nodup fs _ rest rm hnd)

theorem remove_duplicate_screenshots_scan_present (fs : FS) (files : List Nat) :
    ∀ rm seen, (∀ p ∈ rm, lookupFS fs p ≠ none) →
      ∀ p ∈ remove_duplicate_screenshots_scan fs files rm seen,
        lookupFS fs p ≠ none := by
  induction files with
  | nil =>
    intro rm seen hex p hp
    exact hex p (by simpa [remove_duplicate_screenshots_scan] using hp)
  | cons f rest ih =>
    intro rm seen hex
    simp only [remove_duplicate_screenshots_scan]
    split
    · exact ih _ _ hex
    · split
      · exact ih _ _ hex
      · next img hlook =>
        split
        · refine ih _ _ ?_
          intro p hp
          rcases List.mem_append.mp hp with hp1 | hp2
          · exact hex p hp1
          · rw [List.mem_singleton.mp hp2, hlook]
            simp
        · exact ih _ _ (inner_compare_present fs img rest rm hex)

theorem remove_duplicate_screenshots_scan_survivors (fs : FS) :
    ∀ (u : List Nat) (v : List Nat) rm seen x y xi yi, y ∈ v →
      lookupFS fs x = some xi → lookupFS fs y = some yi →
      x ∉ remove_duplicate_screenshots_scan fs (u ++ x :: v) rm seen →
      y ∉ remove_duplicate_screenshots_scan fs (u ++ x :: v) rm seen →
      are_images_identical xi yi = false := by
  intro u
  induction u with
  | nil =>
    intro v rm seen x y xi yi hy hx hyl hxn hyn
    have hxrm : x ∉ rm := fun hc =>
      hxn (remove_duplicate_screenshots_scan_mono fs _ rm seen x hc)
    have hxseen : ¬ get_image_hash xi ∈ seen := fun hc =>
      hxn (remove_duplicate_screenshots_scan_seen fs _ rm seen x xi
        (List.mem_cons_self _ _) hx hc)
    have hstep : remove_duplicate_screenshots_scan fs ([] ++ x :: v) rm seen
        = remove_duplicate_screenshots_scan fs v (inner_compare fs xi v rm)
            (get_image_hash xi :: seen) := by
      simp only [List.nil_append, remove_duplicate_screenshots_scan,
        if_neg hxrm, hx, if_neg hxseen]
    cases hb : are_images_identical xi yi with
    | false => rfl
    | true =>
      exfalso
      apply hyn
      rw [hstep]
      refine remove_duplicate_screenshots_scan_mono fs v _ _ y ?_
      exact (inner_compare_mem_iff fs xi v rm y).mpr
        (Or.inr ⟨hy, yi, hyl, hb⟩)
  | cons a u' ih =>
    intro v rm seen x y xi yi hy hx hyl hxn hyn
    by_cases ha : a ∈ rm
    · have hstep : remove_duplicate_screenshots_scan fs ((a :: u') ++ x :: v) rm seen
          = remove_duplicate_screenshots_scan fs (u' ++ x :: v) rm seen := by
        simp only [List.cons_append, remove_duplicate_screenshots_scan, if_pos ha]
        rfl
      exact ih v rm seen x y xi yi hy hx hyl (hstep ▸ hxn) (hstep ▸ hyn)
    · cases hlook : lookupFS fs a with
      | none =>
        have hstep : remove_duplicate_screenshots_scan fs ((a :: u') ++ x :: v) rm seen
            = remove_duplicate_screenshots_scan fs (u' ++ x :: v) rm seen := by
          simp only [List.cons_append, remove_duplicate_screenshots_scan,
            if_neg ha, hlook]
          rfl
        exact ih v rm seen x y xi yi hy hx hyl (hstep ▸ hxn) (hstep ▸ hyn)
      | some ai =>
        by_cases hs : get_image_hash ai ∈ seen
        · have hstep : remove_duplicate_screenshots_scan fs ((a :: u') ++ x :: v) rm seen
              = remove_duplicate_screenshots_scan fs (u' ++ x :: v) (rm ++ [a]) seen := by
            simp only [List.cons_append, remove_duplicate_screenshots_scan,
              if_neg ha, hlook, if_pos hs]
            rfl
          exact ih v _ seen x y xi yi hy hx hyl (hstep ▸ hxn) (hstep ▸ hyn)
        · have hstep : remove_duplicate_screenshots_scan fs ((a :: u') ++ x :: v) rm seen
              = remove_duplicate_screenshots_scan fs (u' ++ x :: v)
                  (inner_compare fs ai (u' ++ x :: v) rm)
                  (get_image_hash ai :: seen) := by
            simp only [List.cons_append, remove_duplicate_screenshots_scan,
              if_neg ha, hlook, if_neg hs]
            rfl
          exact ih v _ _ x y xi yi hy hx hyl (hstep ▸ hxn) (hstep ▸ hyn)

theorem inner_compare_of_no_match (fs : FS) (cur : ImageFile) (gs : List Nat) :
    ∀ rm, (∀ y ∈ gs, ∀ yi, lookupFS fs y = some yi →
        are_images_identical cur yi = false) →
      inner_compare fs cur gs rm = rm := by
  induction gs with
  | nil =>
    intro rm _
    simp [inner_compare]
  | cons g rest ih =>
    intro rm h
    have h' : ∀ y ∈ rest, ∀ yi, lookupFS fs y = some yi →
        are_images_identical cur yi = false :=
      fun y hy yi hyi => h y (List.mem_cons_of_mem _ hy) yi hyi
    simp only [inner_compare]
    split
    · exact ih _ h'
    · split
      · exact ih _ h'
      · next gi hlook =>
        split
        · next hid =>
          rw [h g (List.mem_cons_self _ _) gi hlook] at hid
          cases hid
        · exact ih _ h'

theorem remove_duplicate_screenshots_scan_of_unique (fs' : FS) (files : List Nat) :
    ∀ rm seen,
    (∀ x ∈ files, ∀ xi, lookupFS fs' x = some xi → xi.bytes ∉ seen) →
    (∀ (u : List Nat) x (v : List Nat) y, files = u ++ x :: v → y ∈ v →
      ∀ xi yi, lookupFS fs' x = some xi → lookupFS fs' y = some yi →
        are_images_identical xi yi = false) →
    remove_duplicate_screenshots_scan fs' files rm seen = rm := by
  induction files with
  | nil =>
    intro rm seen _ _
    simp [remove_duplicate_screenshots_scan]
  | cons f rest ih =>
    intro rm seen h1 h2
    have h1' : ∀ x ∈ rest, ∀ xi, lookupFS fs' x = some xi → xi.bytes ∉ seen :=
      fun x hx xi hxi => h1 x (List.mem_cons_of_mem _ hx) xi hxi
    have h2' : ∀ (u : List Nat) x (v : List Nat) y, rest = u ++ x :: v →
        y ∈ v → ∀ xi yi, lookupFS fs' x = some xi → lookupFS fs' y = some yi →
        are_images_identical xi yi = false := by
      intro u x v y hdecomp hy xi yi hxl hyl
      exact h2 (f :: u) x v y (by rw [hdecomp]; rfl) hy xi yi hxl hyl
    simp only [remove_duplicate_screenshots_scan]
    split
    · exact ih rm seen h1' h2'
    · split
      · exact ih rm seen h1' h2'
      · next fi hlook =>
        split
        · next hs =>
          exact absurd hs (h1 f (List.mem_cons_self _ _) fi hlook)
        · next hs =>
          have hinner : inner_compare fs' fi rest rm = rm :=
            inner_compare_of_no_match fs' fi rest rm
              (fun y hy yi hyl => h2 [] f rest y rfl hy fi yi hlook hyl)
          rw [hinner]
          refine ih rm _ ?_ h2'
          intro x hx xi hxi
          have hne : are_images_identical fi xi = false :=
            h2 [] f rest x rfl hx fi xi hlook hxi
          have hbne : fi.bytes ≠ xi.bytes := bytes_ne_of_not_identical fi xi hne
          simp only [get_image_hash, List.mem_cons]
          rintro (hc | hc)
          · exact hbne hc.symm
          · exact h1' x hx xi hxi hc

theorem remove_duplicate_screenshots_second_run (fs : FS) (files : List Nat) :
    remove_duplicate_screenshots ((remove_duplicate_screenshots fs files).2) files
      = (0, (remove_duplicate_screenshots fs files).2) := by
  by_cases hlen : files.length ≤ 1
  · simp [remove_duplicate_screenshots, hlen]
  · have hnd1 : (remove_duplicate_screenshots_scan fs files [] []).Nodup :=
      remove_duplicate_screenshots_scan_nodup fs files [] [] List.nodup_nil
    have hex1 : ∀ p ∈ remove_duplicate_screenshots_scan fs files [] [],
        lookupFS fs p ≠ none :=
      remove_duplicate_screenshots_scan_present fs files [] [] (by simp)
    obtain ⟨hc1, hchar⟩ :=
      delete_files_spec (remove_duplicate_screenshots_scan fs files [] [])
        fs hnd1 hex1
    have hres : remove_duplicate_screenshots fs files
        = delete_files fs (remove_duplicate_screenshots_scan fs files [] []) := by
      simp [remove_duplicate_screenshots, hlen]
    have hsplit : ∀ q xi,
        lookupFS (remove_duplicate_screenshots fs files).2 q = some xi →
        q ∉ remove_duplicate_screenshots_scan fs files [] []
          ∧ lookupFS fs q = some xi := by
      intro q xi hq
      rw [hres, hchar q] at hq
      by_cases hqr : q ∈ remove_duplicate_screenshots_scan fs files [] []
      · rw [if_pos hqr] at hq
        cases hq
      · rw [if_neg hqr] at hq
        exact ⟨hqr, hq⟩
    have hscan2 : remove_duplicate_screenshots_scan
        (remove_duplicate_screenshots fs files).2 files [] [] = [] := by
      apply remove_duplicate_screenshots_scan_of_unique
      · intro x _ xi _
        simp
      · intro u x v y hdecomp hy xi yi hxlook hylook
        obtain ⟨hxr, hxfs⟩ := hsplit x xi hxlook
        obtain ⟨hyr, hyfs⟩ := hsplit y yi hylook
        rw [hdecomp] at hxr hyr
        exact remove_duplicate_screenshots_scan_survivors fs u v [] [] x y xi yi
          hy hxfs hyfs hxr hyr
    rw [hres] at hscan2
    simp [remove_duplicate_screenshots, hlen, hscan2, delete_files]

theorem remove_duplicate_screenshots_scan_byte_dup (fs : FS)
    (hdec : ∀ e1 ∈ fs, ∀ e2 ∈ fs, (e1 : Nat × ImageFile).2.bytes = e2.2.bytes →
      e1.2.pixels = e2.2.pixels) :
    ∀ (u : List Nat) (x : Nat) (v : List Nat) (rm : List Nat)
      (seen : List (List Nat)) (K : List ImageFile),
      (∀ b, b ∈ seen ↔ ∃ k ∈ K, k.bytes = b) →
      (∀ k ∈ K, ∃ kp, lookupFS fs kp = some k) →
      (∀ z ∈ u ++ x :: v, z ∉ rm → ∀ zi, lookupFS fs z = some zi →
          ∀ k ∈ K, are_images_identical k zi = true → zi.bytes ∈ seen) →
      (∀ z ∈ rm, ∀ zi, lookupFS fs z = some zi →
          zi.bytes ∈ seen ∨ ∃ k ∈ K, are_images_identical k zi = true) →
      ∀ y xi yi, y ∈ v →
        lookupFS fs x = some xi → lookupFS fs y = some yi →
        xi.bytes = yi.bytes →
        y ∈ remove_duplicate_screenshots_scan fs (u ++ x :: v) rm seen := by
  intro u
  induction u with
  | nil =>
    intro x v rm seen K hseen hK hpix hrm y xi yi hy hx hyl hb
    simp only [List.nil_append] at hpix ⊢
    by_cases hxrm : x ∈ rm
    · have hcases := hrm x hxrm xi hx
      have hfromseen : xi.bytes ∈ seen →
          y ∈ remove_duplicate_screenshots_scan fs (x :: v) rm seen := by
        intro hxs
        refine remove_duplicate_screenshots_scan_seen fs _ rm seen y yi
          (List.mem_cons_of_mem _ hy) hyl ?_
        simp only [get_image_hash]
        rw [← hb]
        exact hxs
      rcases hcases with hxs | ⟨k, hk, hkid⟩
      · exact hfromseen hxs
      · rcases are_images_identical_cases k xi hkid with hkb | ⟨P, hkP, hxiP⟩
        · exact hfromseen ((hseen xi.bytes).mpr ⟨k, hk, hkb⟩)
        · have hmemx : (x, xi) ∈ fs := lookupFS_mem fs x xi hx
          have hmemy : (y, yi) ∈ fs := lookupFS_mem fs y yi hyl
          have hpix_eq : xi.pixels = yi.pixels := hdec (x, xi) hmemx (y, yi) hmemy hb
          have hyP : yi.pixels = some P := by rw [← hpix_eq]; exact hxiP
          have hidky : are_images_identical k yi = true :=
            are_images_identical_of_pixels k yi P hkP hyP
          by_cases hyrm : y ∈ rm
          · exact remove_duplicate_screenshots_scan_mono fs _ rm seen y hyrm
          · have hybs : yi.bytes ∈ seen :=
              hpix y (List.mem_cons_of_mem _ hy) hyrm yi hyl k hk hidky
            refine remove_duplicate_screenshots_scan_seen fs _ rm seen y yi
              (List.mem_cons_of_mem _ hy) hyl ?_
            simpa [get_image_hash] using hybs
    · by_cases hxs : get_image_hash xi ∈ seen
      · refine remove_duplicate_screenshots_scan_seen fs _ rm seen y yi
          (List.mem_cons_of_mem _ hy) hyl ?_
        simp only [get_image_hash] at hxs ⊢
        rw [← hb]
        exact hxs
      · have hstep : remove_duplicate_screenshots_scan fs (x :: v) rm seen
            = remove_duplicate_screenshots_scan fs v (inner_compare fs xi v rm)
                (get_image_hash xi :: seen) := by
          simp only [remove_duplicate_screenshots_scan, if_neg hxrm, hx,
            if_neg hxs]
        rw [hstep]
        refine remove_duplicate_screenshots_scan_seen fs v _ _ y yi hy hyl ?_
        simp only [get_image_hash, List.mem_cons]
        exact Or.inl hb.symm
  | cons a u' ih =>
    intro x v rm seen K hseen hK hpix hrm y xi yi hy hx hyl hb
    by_cases ha : a ∈ rm
    · have hstep : remove_duplicate_screenshots_scan fs ((a :: u') ++ x :: v) rm seen
          = remove_duplicate_screenshots_scan fs (u' ++ x :: v) rm seen := by
        simp only [List.cons_append, remove_duplicate_screenshots_scan, if_pos ha]
        rfl
      rw [hstep]
      refine ih x v rm seen K hseen hK ?_ hrm y xi yi hy hx hyl hb
      intro z hz
      exact hpix z (List.mem_cons_of_mem _ hz)
    · cases hlook : lookupFS fs a with
      | none =>
        have hstep : remove_duplicate_screenshots_scan fs ((a :: u') ++ x :: v) rm seen
            = remove_duplicate_screenshots_scan fs (u' ++ x :: v) rm seen := by
          simp only [List.cons_append, remove_duplicate_screenshots_scan,
            if_neg ha, hlook]
          rfl
        rw [hstep]
        refine ih x v rm seen K hseen hK ?_ hrm y xi yi hy hx hyl hb
        intro z hz
        exact hpix z (List.mem_cons_of_mem _ hz)
      | some ai =>
        by_cases hs : get_image_hash ai ∈ seen
        · have hstep : remove_duplicate_screenshots_scan fs ((a :: u') ++ x :: v) rm seen
              = remove_duplicate_screenshots_scan fs (u' ++ x :: v) (rm ++ [a]) seen := by
            simp only [List.cons_append, remove_duplicate_screenshots_scan,
              if_neg ha, hlook, if_pos hs]
            rfl
          rw [hstep]
          refine ih x v (rm ++ [a]) seen K hseen hK ?_ ?_ y xi yi hy hx hyl hb
          · intro z hz hzrm zi hzl k hk hid
            exact hpix z (List.mem_cons_of_mem _ hz)
              (fun hc => hzrm (List.mem_append_left _ hc)) zi hzl k hk hid
          · intro z hz zi hzl
            rcases List.mem_append.mp hz with hz1 | hz2
            · exact hrm z hz1 zi hzl
            · have hza : z = a := List.mem_singleton.mp hz2
              subst hza
              rw [hlook] at hzl
              obtain rfl : ai = zi := by injection hzl
              left
              simpa [get_image_hash] using hs
        · have hstep : remove_duplicate_screenshots_scan fs ((a :: u') ++ x :: v) rm seen
              = remove_duplicate_screenshots_scan fs (u' ++ x :: v)
                  (inner_compare fs ai (u' ++ x :: v) rm)
                  (get_image_hash ai :: seen) := by
            simp only [List.cons_append, remove_duplicate_screenshots_scan,
              if_neg ha, hlook, if_neg hs]
            rfl
          rw [hstep]
          refine ih x v _ _ (ai :: K) ?_ ?_ ?_ ?_ y xi yi hy hx hyl hb
          · intro b
            constructor
            · intro hbmem
              rcases List.mem_cons.mp hbmem with rfl | hbs
              · exact ⟨ai, List.mem_cons_self _ _, rfl⟩
              · obtain ⟨k, hk, hkb⟩ := (hseen b).mp hbs
                exact ⟨k, List.mem_cons_of_mem _ hk, hkb⟩
            · rintro ⟨k, hk, hkb⟩
              rcases List.mem_cons.mp hk with rfl | hkK
              · rw [← hkb]
                exact List.mem_cons_self _ _
              · exact List.mem_cons_of_mem _ ((hseen b).mpr ⟨k, hkK, hkb⟩)
          · intro k hk
            rcases List.mem_cons.mp hk with rfl | hkK
            · exact ⟨a, hlook⟩
            · exact hK k hkK
          · intro z hz hzrm' zi hzl k hk hid
            rcases List.mem_cons.mp hk with rfl | hkK
            · exact absurd ((inner_compare_mem_iff fs k _ rm z).mpr
                (Or.inr ⟨hz, zi, hzl, hid⟩)) hzrm'
            · have hzrm : z ∉ rm :=
                fun hc => hzrm' (inner_compare_mono fs ai _ rm z hc)
              exact List.mem_cons_of_mem _
                (hpix z (List.mem_cons_of_mem _ hz) hzrm zi hzl k hkK hid)
          · intro z hz zi hzl
            rcases (inner_compare_mem_iff fs ai _ rm z).mp hz with
              hz1 | ⟨hzrest, gi, hgi, hidai⟩
            · rcases hrm z hz1 zi hzl with h1 | ⟨k, hk, hkid⟩
              · exact Or.inl (List.mem_cons_of_mem _ h1)
              · exact Or.inr ⟨k, List.mem_cons_of_mem _ hk, hkid⟩
            · rw [hzl] at hgi
              obtain rfl : zi = gi := by injection hgi
              exact Or.inr ⟨ai, List.mem_cons_self _ _, hidai⟩

theorem spec_removed_short (pairs : List (Nat × List Nat))
    (h : pairs.length ≤ 1) : spec_removed pairs [] = [] := by
  rcases pairs with _ | ⟨⟨p, b⟩, _ | ⟨e2, rest⟩⟩
  · rfl
  · simp [spec_removed]
  · simp at h

theorem remove_duplicate_screenshots_scan_short (fs : FS) (files : List Nat)
    (h : files.length ≤ 1) :
    remove_duplicate_screenshots_scan fs files [] [] = [] := by
  rcases files with _ | ⟨f, _ | ⟨g, rest⟩⟩
  · rfl
  · cases hlook : lookupFS fs f <;>
      simp [remove_duplicate_screenshots_scan, hlook, inner_compare]
  · simp at h

theorem remove_duplicate_screenshots_count_char (fs : FS) (files : List Nat) :
    (remove_duplicate_screenshots fs files).1
      = (remove_duplicate_screenshots_scan fs files [] []).length ∧
    ∀ q, lookupFS (remove_duplicate_screenshots fs files).2 q
      = if q ∈ remove_duplicate_screenshots_scan fs files [] [] then none
        else lookupFS fs q := by
  by_cases hlen : files.length ≤ 1
  · rw [remove_duplicate_screenshots_scan_short fs files hlen]
    simp [remove_duplicate_screenshots, hlen]
  · have hnd1 : (remove_duplicate_screenshots_scan fs files [] []).Nodup :=
      remove_duplicate_screenshots_scan_nodup fs files [] [] List.nodup_nil
    have hex1 : ∀ p ∈ remove_duplicate_screenshots_scan fs files [] [],
        lookupFS fs p ≠ none :=
      remove_duplicate_screenshots_scan_present fs files [] [] (by simp)
    obtain ⟨hc1, hchar⟩ :=
      delete_files_spec (remove_duplicate_screenshots_scan fs files [] [])
        fs hnd1 hex1
    have hres : remove_duplicate_screenshots fs files
        = delete_files fs (remove_duplicate_screenshots_scan fs files [] []) := by
      simp [remove_duplicate_screenshots, hlen]
    rw [hres]
    exact ⟨hc1, hchar⟩

theorem remove_duplicates_characterization (fs : FS) (l : List (Nat × ImageFile))
    (hl : ∀ e ∈ l, lookupFS fs e.1 = some e.2)
    (hnd : (l.map Prod.fst).Nodup) :
    (remove_duplicates fs (l.map Prod.fst)).1
      = (spec_removed (l.map fun e => (e.1, e.2.bytes)) []).length ∧
    ∀ q, lookupFS (remove_duplicates fs (l.map Prod.fst)).2 q
      = if q ∈ spec_removed (l.map fun e => (e.1, e.2.bytes)) [] then none
        else lookupFS fs q := by
  have hsub : List.Sublist (spec_removed (l.map fun e => (e.1, e.2.bytes)) [])
      (l.map Prod.fst) := by
    have h1 := spec_removed_sublist (l.map fun e => (e.1, e.2.bytes)) []
    have h2 : (l.map fun e => (e.1, e.2.bytes)).map Prod.fst = l.map Prod.fst := by
      simp [List.map_map]
    rwa [h2] at h1
  have hndr : (spec_removed (l.map fun e => (e.1, e.2.bytes)) []).Nodup :=
    hsub.nodup hnd
  have hexr : ∀ p ∈ spec_removed (l.map fun e => (e.1, e.2.bytes)) [],
      lookupFS fs p ≠ none := by
    intro p hp
    have hpfiles : p ∈ l.map Prod.fst := hsub.subset hp
    obtain ⟨e, he, hep⟩ := List.mem_map.mp hpfiles
    rw [← hep, hl e he]
    simp
  by_cases hlen : (l.map Prod.fst).length ≤ 1
  · have hplen : (l.map fun e => (e.1, e.2.bytes)).length ≤ 1 := by
      simpa using hlen
    have hlen' : l.length ≤ 1 := by simpa using hlen
    rw [spec_removed_short _ hplen]
    simp [remove_duplicates, hlen']
  · have hscan : remove_duplicates_scan fs (l.map Prod.fst) [] []
        = spec_removed (l.map fun e => (e.1, e.2.bytes)) [] := by
      have := remove_duplicates_scan_eq_spec fs l [] [] hl hnd (by simp)
      simpa using this
    have hres : remove_duplicates fs (l.map Prod.fst)
        = delete_files fs (remove_duplicates_scan fs (l.map Prod.fst) [] []) := by
      have hlen' : ¬ l.length ≤ 1 := by simpa using hlen
      simp [remove_duplicates, hlen']
    rw [hres, hscan]
    exact delete_files_spec _ fs hndr hexr

theorem spec_removed_pos_iff (l : List (Nat × ImageFile))
    (hnd : (l.map Prod.fst).Nodup) (j : Nat) (hj : j < l.length) :
    ((l.get ⟨j, hj⟩).1 ∈ spec_removed (l.map fun e => (e.1, e.2.bytes)) [] ↔
      (l.get ⟨j, hj⟩).2.bytes
        ∈ ((l.map fun e => (e.1, e.2.bytes)).take j).map Prod.snd) := by
  have hndp : ((l.map fun e => (e.1, e.2.bytes)).map Prod.fst).Nodup := by
    have h2 : (l.map fun e => (e.1, e.2.bytes)).map Prod.fst = l.map Prod.fst := by
      simp [List.map_map]
    rw [h2]
    exact hnd
  have hj' : j < (l.map fun e => (e.1, e.2.bytes)).length := by simpa using hj
  have hget : (l.map fun e => (e.1, e.2.bytes)).get ⟨j, hj'⟩
      = ((l.get ⟨j, hj⟩).1, (l.get ⟨j, hj⟩).2.bytes) := by
    simp [List.get_eq_getElem, List.getElem_map]
  have := spec_removed_mem_iff (l.map fun e => (e.1, e.2.bytes)) [] hndp j hj'
  rw [hget] at this
  simpa using this

/-- **C1** (corrected): for the batch deduplicator the claim holds in
full — the returned count is the number of removed files, exactly the
later holders of an already-seen content fingerprint are deleted (an
artifact is removed iff an earlier artifact is byte-identical), and the
first-seen holder of each fingerprint survives in first-seen order.  The
single-video deduplicator also deletes every file byte-identical to an
earlier file and returns the number of files deleted, but its surviving
set can be smaller than the first-seen-fingerprint holders: a file whose
decoded pixels equal those of an earlier survivor is deleted even when
its raw bytes (hence its SHA-256 fingerprint) differ.  Hypotheses: the
listed artifacts exist on disk with the listed contents, paths are
distinct, and decoding is a function of the raw bytes. -/
theorem dedupe_first_seen (fs : FS) (l : List (Nat × ImageFile))
    (hl : ∀ e ∈ l, lookupFS fs e.1 = some e.2)
    (hnd : (l.map Prod.fst).Nodup)
    (hdec : ∀ e1 ∈ fs, ∀ e2 ∈ fs, (e1 : Nat × ImageFile).2.bytes = e2.2.bytes →
      e1.2.pixels = e2.2.pixels) :
    dedupe_first_seen_spec fs l := by
  obtain ⟨h1, h2⟩ := remove_duplicates_characterization fs l hl hnd
  obtain ⟨h6, h7⟩ := remove_duplicate_screenshots_count_char fs (l.map Prod.fst)
  have hmapfst : (l.map fun e => (e.1, e.2.bytes)).map Prod.fst = l.map Prod.fst := by
    simp [List.map_map]
  refine ⟨h1, h2, ?_, ?_, ?_, h6, h7, ?_⟩
  · have hperm := spec_removed_survivors_perm (l.map fun e => (e.1, e.2.bytes)) []
    rwa [hmapfst] at hperm
  · have hsub := spec_survivors_sublist (l.map fun e => (e.1, e.2.bytes)) []
    rwa [hmapfst] at hsub
  · intro j hj
    exact spec_removed_pos_iff l hnd j hj
  · intro u x v y hdecomp hy xi yi hx hyl hb
    have hymem : y ∈ remove_duplicate_screenshots_scan fs (l.map Prod.fst) [] [] := by
      rw [hdecomp]
      exact remove_duplicate_screenshots_scan_byte_dup fs hdec u x v [] [] []
        (by simp) (by simp) (by simp) (by simp) y xi yi hy hx hyl hb
    rw [h7 y, if_pos hymem]

/-- Witness for C1 at a concrete artifact set: three files where the
first and third are byte-identical. -/
theorem dedupe_first_seen_witness :
    (∀ e ∈ fsDupTriple, lookupFS fsDupTriple e.1 = some e.2) ∧
    (fsDupTriple.map Prod.fst).Nodup ∧
    (∀ e1 ∈ fsDupTriple, ∀ e2 ∈ fsDupTriple,
      (e1 : Nat × ImageFile).2.bytes = e2.2.bytes → e1.2.pixels = e2.2.pixels) ∧
    dedupe_first_seen_spec fsDupTriple fsDupTriple :=
  ⟨by decide, by decide, by decide,
    dedupe_first_seen fsDupTriple fsDupTriple (by decide) (by decide) (by decide)⟩

/-- Counterexample to C1 as stated: in the single-video deduplicator, a
file whose SHA-256 fingerprint (raw bytes) occurs nowhere else in the
set is nevertheless removed, because its decoded pixels match an earlier
file's — so it is not the case that exactly the first-seen file of each
content fingerprint survives. -/
theorem dedupe_first_seen_cex :
    (ImageFile.mk [1] (some [7])).bytes ≠ (ImageFile.mk [2] (some [7])).bytes ∧
    lookupFS fsPixelPair 0 = some (ImageFile.mk [1] (some [7])) ∧
    lookupFS fsPixelPair 1 = some (ImageFile.mk [2] (some [7])) ∧
    (remove_duplicate_screenshots fsPixelPair [0, 1]).1 = 1 ∧
    lookupFS (remove_duplicate_screenshots fsPixelPair [0, 1]).2 1 = none := by
  decide

/-- **C7**: both deduplicators are idempotent — a second run on the same
file list over the filesystem left by the first run deletes nothing and
returns 0. -/
theorem dedupe_idempotent (fs : FS) (files : List Nat) :
    remove_duplicates ((remove_duplicates fs files).2) files
      = (0, (remove_duplicates fs files).2) ∧
    remove_duplicate_screenshots ((remove_duplicate_screenshots fs files).2) files
      = (0, (remove_duplicate_screenshots fs files).2) :=
  ⟨remove_duplicates_second_run fs files,
    remove_duplicate_screenshots_second_run fs files⟩

/-- **C5** (corrected): byte-identity (fingerprint equality) is the sole
removal criterion for the batch deduplicator — an artifact is deleted iff
an earlier artifact in the sequence has the same fingerprint — but not
for the single-video deduplicator, which also deletes a file whose raw
bytes differ from every other file when its decoded pixels equal an
earlier file's. -/
theorem byte_identity_criterion (fs : FS) (l : List (Nat × ImageFile))
    (hl : ∀ e ∈ l, lookupFS fs e.1 = some e.2)
    (hnd : (l.map Prod.fst).Nodup) :
    (∀ j (hj : j < l.length),
      (lookupFS (remove_duplicates fs (l.map Prod.fst)).2 (l.get ⟨j, hj⟩).1 = none
        ↔ (l.get ⟨j, hj⟩).2.bytes
            ∈ ((l.map fun e => (e.1, e.2.bytes)).take j).map Prod.snd)) ∧
    ((ImageFile.mk [1] (some [7])).bytes ≠ (ImageFile.mk [2] (some [7])).bytes ∧
      (remove_duplicate_screenshots fsPixelPair [0, 1]).1 = 1 ∧
      lookupFS (remove_duplicate_screenshots fsPixelPair [0, 1]).2 1 = none) := by
  refine ⟨?_, by decide, by decide, by decide⟩
  intro j hj
  obtain ⟨h1, h2⟩ := remove_duplicates_characterization fs l hl hnd
  rw [h2]
  have hpos := spec_removed_pos_iff l hnd j hj
  by_cases hmem : (l.get ⟨j, hj⟩).1 ∈ spec_removed (l.map fun e => (e.1, e.2.bytes)) []
  · rw [if_pos hmem]
    simpa [hpos.mp hmem] using hpos.mp hmem
  · rw [if_neg hmem]
    have hlk : lookupFS fs (l.get ⟨j, hj⟩).1 = some (l.get ⟨j, hj⟩).2 :=
      hl _ (l.get_mem j hj)
    rw [hlk]
    constructor
    · intro hc
      cases hc
    · intro hc
      exact absurd (hpos.mpr hc) hmem

/-- Witness for C5 at the concrete three-file set. -/
theorem byte_identity_criterion_witness :
    (∀ e ∈ fsDupTriple, lookupFS fsDupTriple e.1 = some e.2) ∧
    (fsDupTriple.map Prod.fst).Nodup ∧
    ((∀ j (hj : j < fsDupTriple.length),
      (lookupFS (remove_duplicates fsDupTriple (fsDupTriple.map Prod.fst)).2
          (fsDupTriple.get ⟨j, hj⟩).1 = none
        ↔ (fsDupTriple.get ⟨j, hj⟩).2.bytes
            ∈ ((fsDupTriple.map fun e => (e.1, e.2.bytes)).take j).map Prod.snd)) ∧
    ((ImageFile.mk [1] (some [7])).bytes ≠ (ImageFile.mk [2] (some [7])).bytes ∧
      (remove_duplicate_screenshots fsPixelPair [0, 1]).1 = 1 ∧
      lookupFS (remove_duplicate_screenshots fsPixelPair [0, 1]).2 1 = none)) :=
  ⟨by decide, by decide,
    byte_identity_criterion fsDupTriple fsDupTriple (by decide) (by decide)⟩

/-- Counterexample to C5 as stated: the two files differ in raw bytes
(distinct fingerprints), yet the single-video deduplicator removes the
second as a duplicate of the first (their decoded pixels agree), so
fingerprint equality is not the sole removal criterion there. -/
theorem byte_identity_sole_criterion_cex :
    lookupFS fsPixelPair 0 = some (ImageFile.mk [1] (some [7])) ∧
    lookupFS fsPixelPair 1 = some (ImageFile.mk [2] (some [7])) ∧
    (ImageFile.mk [1] (some [7])).bytes ≠ (ImageFile.mk [2] (some [7])).bytes ∧
    are_images_identical (ImageFile.mk [1] (some [7]))
      (ImageFile.mk [2] (some [7])) = true ∧
    (remove_duplicate_screenshots fsPixelPair [0, 1]).1 = 1 ∧
    lookupFS (remove_duplicate_screenshots fsPixelPair [0, 1]).2 1 = none := by
  decide

/-!
## The capture grid (claims C2 and C10)
-/

theorem extractAux_all_ok (D : ℚ) (I : Nat) (hI : 0 < I) :
    ∀ (n t : Nat), (t : ℚ) ≤ D → (⌊(D - t) / I⌋).toNat = n →
      extractAux (fun _ => true) D I hI t
        = ((List.range (n + 1)).map fun k => t + k * I, true) := by
  have hI0 : (0 : ℚ) < I := by exact_mod_cast hI
  intro n
  induction n with
  | zero =>
    intro t ht hn
    have hnext : ¬ ((t + I : Nat) : ℚ) ≤ D := by
      intro hc
      have h1 : (1 : ℚ) ≤ (D - t) / I := by
        rw [le_div_iff₀ hI0]
        push_cast at hc ⊢
        linarith
      have h2 : (1 : ℤ) ≤ ⌊(D - (t : ℚ)) / I⌋ := Int.le_floor.mpr (by
        push_cast
        exact h1)
      omega
    have hstep : extractAux (fun _ => true) D I hI t
        = (t :: (extractAux (fun _ => true) D I hI (t + I)).1,
           (extractAux (fun _ => true) D I hI (t + I)).2) := by
      rw [extractAux, dif_pos ht]
      rfl
    have hstop : extractAux (fun _ => true) D I hI (t + I) = ([], true) := by
      rw [extractAux, dif_neg hnext]
    have hr1 : List.range 1 = [0] := rfl
    rw [hstep, hstop, hr1]
    simp
  | succ n ihn =>
    intro t ht hn
    have hfl : (1 : ℤ) ≤ ⌊(D - (t : ℚ)) / I⌋ := by omega
    have h1 : (1 : ℚ) ≤ (D - t) / I := by
      calc (1 : ℚ) = ((1 : ℤ) : ℚ) := by norm_num
        _ ≤ (⌊(D - (t : ℚ)) / I⌋ : ℚ) := by exact_mod_cast hfl
        _ ≤ (D - t) / I := Int.floor_le _
    have hnext : ((t + I : Nat) : ℚ) ≤ D := by
      rw [le_div_iff₀ hI0] at h1
      push_cast
      linarith
    have hrec : (⌊(D - ((t + I : Nat) : ℚ)) / I⌋).toNat = n := by
      have heq : (D - ((t + I : Nat) : ℚ)) / I = (D - t) / I - 1 := by
        push_cast
        field_simp
        ring
      rw [heq, Int.floor_sub_one]
      omega
    have hstep : extractAux (fun _ => true) D I hI t
        = (t :: (extractAux (fun _ => true) D I hI (t + I)).1,
           (extractAux (fun _ => true) D I hI (t + I)).2) := by
      rw [extractAux, dif_pos ht]
      rfl
    rw [hstep, ihn (t + I) hnext hrec]
    refine Prod.ext ?_ rfl
    apply List.ext_getElem
    · simp
    · intro i h1 h2
      cases i with
      | zero => simp
      | succ i =>
        simp only [List.getElem_cons_succ, List.getElem_map, List.getElem_range]
        ring

theorem extractHQAux_all_ok (D : ℚ) (I : Nat) (hI : 0 < I) (hD : D ≠ 0) :
    ∀ (n t : Nat), (t : ℚ) ≤ D → (⌊(D - t) / I⌋).toNat = n →
      extractHQAux (fun _ => true) D I hI t
        = ((List.range (n + 1)).map fun k => t + k * I, HQLoopExit.completed) := by
  have hI0 : (0 : ℚ) < I := by exact_mod_cast hI
  intro n
  induction n with
  | zero =>
    intro t ht hn
    have hnext : ¬ ((t + I : Nat) : ℚ) ≤ D := by
      intro hc
      have h1 : (1 : ℚ) ≤ (D - t) / I := by
        rw [le_div_iff₀ hI0]
        push_cast at hc ⊢
        linarith
      have h2 : (1 : ℤ) ≤ ⌊(D - (t : ℚ)) / I⌋ := Int.le_floor.mpr (by
        push_cast
        exact h1)
      omega
    have hstep : extractHQAux (fun _ => true) D I hI t
        = (t :: (extractHQAux (fun _ => true) D I hI (t + I)).1,
           (extractHQAux (fun _ => true) D I hI (t + I)).2) := by
      rw [extractHQAux, dif_pos ht, if_pos rfl, if_neg hD]
    have hstop : extractHQAux (fun _ => true) D I hI (t + I)
        = ([], HQLoopExit.completed) := by
      rw [extractHQAux, dif_neg hnext]
    have hr1 : List.range 1 = [0] := rfl
    rw [hstep, hstop, hr1]
    simp
  | succ n ihn =>
    intro t ht hn
    have hfl : (1 : ℤ) ≤ ⌊(D - (t : ℚ)) / I⌋ := by omega
    have h1 : (1 : ℚ) ≤ (D - t) / I := by
      calc (1 : ℚ) = ((1 : ℤ) : ℚ) := by norm_num
        _ ≤ (⌊(D - (t : ℚ)) / I⌋ : ℚ) := by exact_mod_cast hfl
        _ ≤ (D - t) / I := Int.floor_le _
    have hnext : ((t + I : Nat) : ℚ) ≤ D := by
      rw [le_div_iff₀ hI0] at h1
      push_cast
      linarith
    have hrec : (⌊(D - ((t + I : Nat) : ℚ)) / I⌋).toNat = n := by
      have heq : (D - ((t + I : Nat) : ℚ)) / I = (D - t) / I - 1 := by
        push_cast
        field_simp
        ring
      rw [heq, Int.floor_sub_one]
      omega
    have hstep : extractHQAux (fun _ => true) D I hI t
        = (t :: (extractHQAux (fun _ => true) D I hI (t + I)).1,
           (extractHQAux (fun _ => true) D I hI (t + I)).2) := by
      rw [extractHQAux, dif_pos ht, if_pos rfl, if_neg hD]
    rw [hstep, ihn (t + I) hnext hrec]
    refine Prod.ext ?_ rfl
    apply List.ext_getElem
    · simp
    · intro i h1 h2
      cases i with
      | zero => simp
      | succ i =>
        simp only [List.getElem_cons_succ, List.getElem_map, List.getElem_range]
        ring

theorem extract_hq_zero_crash (ok : Nat → Bool) (I : Nat) (hI : 0 < I)
    (hok : ok 0 = true) :
    extract_high_quality_screenshots ok 0 I hI = ([0], none) := by
  have hstep : extractHQAux ok 0 I hI 0 = ([0], HQLoopExit.zeroDivisionError) := by
    rw [extractHQAux, dif_pos (by norm_num : ((0 : Nat) : ℚ) ≤ 0), if_pos hok,
      if_pos rfl]
  simp [extract_high_quality_screenshots, hstep]

/-- **C2** (corrected): for every duration `D ≥ 0` and integer interval
`I > 0`, with every ffmpeg invocation succeeding, the batch extraction
loop produces exactly the timestamps `0, I, 2I, …` up to the last
multiple of `I` that is `≤ D`: the returned file list is
`(range (⌊D/I⌋+1)).map (·*I)` with no repeats, its length (the number of
capture invocations and of returned paths) being `⌊D/I⌋ + 1`.  The
single-video extraction loop does the same for every `D > 0`; but at
`D = 0` — a duration the claim includes — it raises an uncaught
ZeroDivisionError from its in-loop progress computation after the first
successful grab, returning nothing at all instead of the claimed
one-element path list (the single frame is still written to disk). -/
theorem capture_grid_exact (D : ℚ) (I : Nat) (ok : Nat → Bool)
    (hD : 0 ≤ D) (hI : 0 < I) (hok : ∀ t, ok t = true) :
    extract_screenshots ok D I hI
      = ((List.range ((⌊D / I⌋).toNat + 1)).map fun k => k * I,
         (List.range ((⌊D / I⌋).toNat + 1)).map fun k => k * I) ∧
    (extract_screenshots ok D I hI).2.length = (⌊D / I⌋).toNat + 1 ∧
    (extract_screenshots ok D I hI).2.Nodup ∧
    (0 < D → extract_high_quality_screenshots ok D I hI
      = ((List.range ((⌊D / I⌋).toNat + 1)).map fun k => k * I,
         some ((⌊D / I⌋).toNat + 1,
           (List.range ((⌊D / I⌋).toNat + 1)).map fun k => k * I))) ∧
    (D = 0 → extract_high_quality_screenshots ok D I hI = ([0], none)) := by
  have hokf : ok = fun _ => true := funext fun t => hok t
  subst hokf
  have h0 : ((0 : Nat) : ℚ) ≤ D := by exact_mod_cast hD
  have hbase : extractAux (fun _ => true) D I hI 0
      = ((List.range ((⌊D / I⌋).toNat + 1)).map fun k => k * I, true) := by
    have := extractAux_all_ok D I hI ((⌊D / I⌋).toNat) 0 h0 (by
      norm_num)
    simpa using this
  have hnodup : ((List.range ((⌊D / I⌋).toNat + 1)).map fun k => k * I).Nodup := by
    refine List.Nodup.map ?_ (List.nodup_range _)
    intro a b hab
    exact Nat.eq_of_mul_eq_mul_right hI hab
  refine ⟨?_, ?_, ?_, ?_, ?_⟩
  · simp [extract_screenshots, hbase]
  · simp [extract_screenshots, hbase]
  · simp only [extract_screenshots, hbase]
    simpa using hnodup
  · intro hDpos
    have hDne : D ≠ 0 := ne_of_gt hDpos
    have hbaseHQ : extractHQAux (fun _ => true) D I hI 0
        = ((List.range ((⌊D / I⌋).toNat + 1)).map fun k => k * I,
           HQLoopExit.completed) := by
      have := extractHQAux_all_ok D I hI hDne ((⌊D / I⌋).toNat) 0 h0 (by
        norm_num)
      simpa using this
    simp [extract_high_quality_screenshots, hbaseHQ]
  · intro hD0
    subst hD0
    exact extract_hq_zero_crash (fun _ => true) I hI rfl

/-- Witness for C2: the spec's own scenario (95 s, interval 10 s) gives
10 timestamps from both loops, and duration 0 crashes the single-video
loop after writing one frame. -/
theorem capture_grid_exact_witness :
    (0 : ℚ) ≤ 95 ∧ 0 < 10 ∧
    (extract_screenshots (fun _ => true) (95 : ℚ) 10 (by norm_num)).2.length
      = (⌊(95 : ℚ) / 10⌋).toNat + 1 ∧
    extract_high_quality_screenshots (fun _ => true) (95 : ℚ) 10 (by norm_num)
      = ((List.range ((⌊(95 : ℚ) / 10⌋).toNat + 1)).map fun k => k * 10,
         some ((⌊(95 : ℚ) / 10⌋).toNat + 1,
           (List.range ((⌊(95 : ℚ) / 10⌋).toNat + 1)).map fun k => k * 10)) ∧
    extract_high_quality_screenshots (fun _ => true) (0 : ℚ) 10 (by norm_num)
      = ([0], none) ∧
    (⌊(95 : ℚ) / 10⌋).toNat + 1 = 10 :=
  ⟨by norm_num, by norm_num,
    (capture_grid_exact 95 10 (fun _ => true) (by norm_num) (by norm_num)
      (fun _ => rfl)).2.1,
    (capture_grid_exact 95 10 (fun _ => true) (by norm_num) (by norm_num)
      (fun _ => rfl)).2.2.2.1 (by norm_num),
    (capture_grid_exact 0 10 (fun _ => true) (by norm_num) (by norm_num)
      (fun _ => rfl)).2.2.2.2 rfl,
    by
      norm_num
      decide⟩

/-- Counterexample to C2 as stated: at duration `D = 0` (which the claim
includes, `D ≥ 0`) with interval 10 and the frame grab succeeding, the
single-video extractor returns no path list at all — the in-loop
progress computation divides by the zero duration and the uncaught
ZeroDivisionError aborts the function — while `⌊D/I⌋ + 1 = 1` path is
claimed (the batch extractor does return it). -/
theorem capture_grid_zero_duration_cex :
    (0 : ℚ) ≤ 0 ∧
    (extract_high_quality_screenshots (fun _ => true) (0 : ℚ) 10
      (by norm_num)).2 = none ∧
    extract_screenshots (fun _ => true) (0 : ℚ) 10 (by norm_num) = ([0], [0]) ∧
    (⌊(0 : ℚ) / 10⌋).toNat + 1 = 1 := by
  refine ⟨le_refl 0, ?_, ?_, by norm_num⟩
  · rw [extract_hq_zero_crash (fun _ => true) 10 (by norm_num) rfl]
  · have h0 := extractAux_all_ok (0 : ℚ) 10 (by norm_num) 0 0 (by norm_num)
      (by norm_num)
    have hr1 : List.range 1 = [0] := rfl
    rw [hr1] at h0
    simp only [List.map_cons, List.map_nil, Nat.zero_mul, Nat.add_zero] at h0
    simp [extract_screenshots, h0]

theorem extractAux_first_fail (ok : Nat → Bool) (D : ℚ) (I : Nat) (hI : 0 < I) :
    ∀ (j t : Nat), (∀ k, k < j → ok (t + k * I) = true) →
      ok (t + j * I) = false → ((t + j * I : Nat) : ℚ) ≤ D →
      extractAux ok D I hI t = ((List.range j).map fun k => t + k * I, false) := by
  intro j
  induction j with
  | zero =>
    intro t hok hfail hle
    have ht : (t : ℚ) ≤ D := by simpa using hle
    have hf : ok t = false := by simpa using hfail
    rw [extractAux, dif_pos ht, if_neg (by rw [hf]; exact Bool.false_ne_true)]
    simp
  | succ j ihj =>
    intro t hok hfail hle
    have hokt : ok t = true := by simpa using hok 0 (Nat.succ_pos j)
    have ht : (t : ℚ) ≤ D := by
      have hcast : ((t : Nat) : ℚ) ≤ ((t + (j + 1) * I : Nat) : ℚ) := by
        exact_mod_cast Nat.le_add_right t ((j + 1) * I)
      linarith [hle, hcast]
    have harith : ∀ k : Nat, t + I + k * I = t + (k + 1) * I := by
      intro k
      ring
    have hstep : extractAux ok D I hI t
        = (t :: (extractAux ok D I hI (t + I)).1,
           (extractAux ok D I hI (t + I)).2) := by
      rw [extractAux, dif_pos ht, if_pos hokt]
    rw [hstep, ihj (t + I) (by
        intro k hk
        rw [harith k]
        exact hok (k + 1) (by omega))
      (by rw [harith j]; exact hfail)
      (by rw [harith j]; exact hle)]
    refine Prod.ext ?_ rfl
    apply List.ext_getElem
    · simp
    · intro i h1 h2
      cases i with
      | zero => simp
      | succ i =>
        simp only [List.getElem_cons_succ, List.getElem_map, List.getElem_range]
        ring

/-- **C10**: if the ffmpeg invocation first fails at grid point `j*I`
(with every earlier one succeeding and `j*I` within the duration), the
job's result reports failure with error "No screenshots extracted" and 0
screenshots, yet the images directory — created before capture and kept
under the permanent output root — still holds the frames captured before
the failure (`0, I, …, (j-1)*I`): a failed job leaves a partial capture
set on disk. -/
theorem process_video_partial_capture (transcriptOk : Bool) (capOk : Nat → Bool)
    (content : Nat → ImageFile) (no_pdf : Bool) (pdfOk : FS → Bool)
    (D : ℚ) (I : Nat) (hI : 0 < I) (j : Nat)
    (hbefore : ∀ k, k < j → capOk (k * I) = true)
    (hfail : capOk (j * I) = false)
    (hin : ((j * I : Nat) : ℚ) ≤ D) :
    process_video true true transcriptOk capOk content no_pdf pdfOk D I hI
      = (⟨false, some "No screenshots extracted", 0, transcriptOk, false⟩,
         ⟨true, ((List.range j).map fun k => k * I).map
            fun ts => (ts, content ts)⟩) := by
  have hext : extractAux capOk D I hI 0
      = ((List.range j).map fun k => k * I, false) := by
    have := extractAux_first_fail capOk D I hI j 0
      (by intro k hk; simpa using hbefore k hk)
      (by simpa using hfail)
      (by simpa using hin)
    simpa using this
  simp [process_video, extract_screenshots, hext]

/-- Witness for C10: duration 50 s, interval 10 s, ffmpeg fails at the
third grid point (t = 20); the two earlier frames remain on disk while
the job reports failure with 0 screenshots. -/
theorem process_video_partial_capture_witness :
    (∀ k, k < 2 → (fun t => decide (t ≠ 20)) (k * 10) = true) ∧
    (fun t => decide (t ≠ 20)) (2 * 10) = false ∧
    ((2 * 10 : Nat) : ℚ) ≤ 50 ∧
    process_video true true true (fun t => decide (t ≠ 20))
        (fun ts => ImageFile.mk [ts] none) false (fun _ => true)
        50 10 (by norm_num)
      = (⟨false, some "No screenshots extracted", 0, true, false⟩,
         ⟨true, ((List.range 2).map fun k => k * 10).map
            fun ts => (ts, ImageFile.mk [ts] none)⟩) :=
  ⟨by decide, by decide, by norm_num,
    process_video_partial_capture true (fun t => decide (t ≠ 20))
      (fun ts => ImageFile.mk [ts] none) false (fun _ => true)
      50 10 (by norm_num) 2 (by decide) (by decide) (by norm_num)⟩

/-!
## The scheduler (claims C3 and C6)
-/

theorem filter_not_length (l : List JobRecord) :
    (l.filter fun r => !r.success).length
      = l.length - (l.filter fun r => r.success).length := by
  induction l with
  | nil => simp
  | cons r rest ih =>
    have hle : (rest.filter fun r => r.success).length ≤ rest.length :=
      List.length_filter_le _ _
    cases hr : r.success <;> simp [List.filter_cons, hr, ih] <;> omega

theorem process_parallel_job_id (order : List (Nat × String))
    (run : Nat → String → JobRun) :
    (process_parallel order run).map (fun r => r.job_id)
      = order.map Prod.fst := by
  simp only [process_parallel, List.map_map]
  apply List.map_congr_left
  intro j _
  simp only [Function.comp]
  split <;> rfl

/-- **C3** (corrected): for every batch, whatever order `as_completed`
yields the futures in, the result collection holds exactly one record per
job (its job-id multiset equals the submitted 1-based ids), the summary
counts every job (successful + failed = N), and each failed job produces
exactly one failed-videos entry.  (What fails in the original claim is
URL coverage: the summary lists URLs only for failed jobs, and a job
whose future raised has no URL even in its result record — see the
counterexample.) -/
theorem scheduler_completeness (urls : List String)
    (run : Nat → String → JobRun) (order : List (Nat × String))
    (hperm : List.Perm order (jobArgs urls)) :
    (process_parallel order run).length = urls.length ∧
    (print_summary (process_parallel order run)).total = urls.length ∧
    (print_summary (process_parallel order run)).successful
      + (print_summary (process_parallel order run)).failed = urls.length ∧
    List.Perm ((process_parallel order run).map fun r => r.job_id)
      ((jobArgs urls).map Prod.fst) ∧
    (print_summary (process_parallel order run)).failed_entries.length
      = (print_summary (process_parallel order run)).failed := by
  have hlen : (process_parallel order run).length = urls.length := by
    have h1 : (process_parallel order run).length = order.length := by
      simp [process_parallel]
    have h2 : order.length = (jobArgs urls).length := hperm.length_eq
    have h3 : (jobArgs urls).length = urls.length := by
      simp [jobArgs, List.enum_length]
    omega
  refine ⟨hlen, by simpa [print_summary] using hlen, ?_, ?_, ?_⟩
  · have hle : ((process_parallel order run).filter fun r => r.success).length
        ≤ (process_parallel order run).length :=
      List.length_filter_le _ _
    simp only [print_summary]
    omega
  · rw [process_parallel_job_id]
    exact hperm.map Prod.fst
  · simp only [print_summary, List.length_map]
    exact filter_not_length _

/-- Witness for C3: a two-URL batch where job 1 returns normally and
job 2 raises, collected in completion order (2 then 1). -/
theorem scheduler_completeness_witness :
    List.Perm [(2, "u2"), (1, "u1")] (jobArgs ["u1", "u2"]) ∧
    ((process_parallel [(2, "u2"), (1, "u1")]
        (fun id _ => if id = 1 then ⟨5, Outcome.returns true none 3⟩
          else ⟨7, Outcome.raises "boom"⟩)).length = 2 ∧
     (print_summary (process_parallel [(2, "u2"), (1, "u1")]
        (fun id _ => if id = 1 then ⟨5, Outcome.returns true none 3⟩
          else ⟨7, Outcome.raises "boom"⟩))).successful
       + (print_summary (process_parallel [(2, "u2"), (1, "u1")]
        (fun id _ => if id = 1 then ⟨5, Outcome.returns true none 3⟩
          else ⟨7, Outcome.raises "boom"⟩))).failed = 2) :=
  ⟨by decide,
    (scheduler_completeness ["u1", "u2"]
      (fun id _ => if id = 1 then ⟨5, Outcome.returns true none 3⟩
        else ⟨7, Outcome.raises "boom"⟩)
      [(2, "u2"), (1, "u1")] (by decide)).1,
    (scheduler_completeness ["u1", "u2"]
      (fun id _ => if id = 1 then ⟨5, Outcome.returns true none 3⟩
        else ⟨7, Outcome.raises "boom"⟩)
      [(2, "u2"), (1, "u1")] (by decide)).2.2.1⟩

/-- Counterexample to C3 as stated: in a two-URL batch where job 1
succeeds and job 2's future raises, the printed summary contains neither
URL (URLs appear only in the failed-videos list, and the record built in
the except-branch has no url key at all), so the summary does not include
every input URL exactly once. -/
theorem scheduler_summary_urls_cex :
    "u1" ∈ ["u1", "u2"] ∧ "u2" ∈ ["u1", "u2"] ∧
    summary_url_count (print_summary (process_parallel (jobArgs ["u1", "u2"])
      (fun id _ => if id = 1 then ⟨5, Outcome.returns true none 3⟩
        else ⟨7, Outcome.raises "boom"⟩))) "u1" = 0 ∧
    summary_url_count (print_summary (process_parallel (jobArgs ["u1", "u2"])
      (fun id _ => if id = 1 then ⟨5, Outcome.returns true none 3⟩
        else ⟨7, Outcome.raises "boom"⟩))) "u2" = 0 ∧
    (∀ r ∈ process_parallel (jobArgs ["u1", "u2"])
      (fun id _ => if id = 1 then ⟨5, Outcome.returns true none 3⟩
        else ⟨7, Outcome.raises "boom"⟩), r.url ≠ some "u2") := by
  decide

/-- **C6** (covering the code bug): the per-job 600 s ceiling can never
fire — `future.result(timeout=600)` is only reached for futures already
yielded by `as_completed`, i.e. already complete — so a job that runs
700 s (over the ceiling) and then returns successfully is recorded as a
plain success, not as a failed job with a timeout error; its sibling is
unaffected. -/
theorem job_timeout_never_fires_cex :
    (600 < (if (1 : Nat) = 1 then (700 : Nat) else 10)) ∧
    process_parallel [(2, "u2"), (1, "u1")]
        (fun id _ => if id = 1 then ⟨700, Outcome.returns true none 3⟩
          else ⟨10, Outcome.returns true none 4⟩)
      = [⟨2, some "u2", true, none, 4⟩, ⟨1, some "u1", true, none, 3⟩] ∧
    (∀ r ∈ process_parallel [(2, "u2"), (1, "u1")]
        (fun id _ => if id = 1 then ⟨700, Outcome.returns true none 3⟩
          else ⟨10, Outcome.returns true none 4⟩),
      r.success = true ∧ r.error = none) := by
  decide

/-!
## Filename sanitization (claim C4)
-/

theorem remove_invalid_chars_mem (s : List Char) (c : Char) :
    c ∈ remove_invalid_chars s ↔ c ∈ s ∧ c ∉ invalid_chars := by
  simp only [remove_invalid_chars, invalid_chars, List.foldl_cons,
    List.foldl_nil, List.mem_filter, List.mem_cons, List.not_mem_nil,
    or_false, decide_eq_true_eq]
  constructor
  · rintro ⟨⟨⟨⟨⟨⟨⟨⟨⟨h0, h1⟩, h2⟩, h3⟩, h4⟩, h5⟩, h6⟩, h7⟩, h8⟩, h9⟩
    exact ⟨h0, by tauto⟩
  · rintro ⟨h0, h⟩
    simp only [not_or] at h
    tauto

theorem foldl_filter_sublist (cl : List Char) :
    ∀ (s : List Char),
      List.Sublist (cl.foldl (fun acc c => acc.filter (fun d => d ≠ c)) s) s := by
  induction cl with
  | nil =>
    intro s
    exact List.Sublist.refl s
  | cons c rest ih =>
    intro s
    exact (ih (s.filter (fun d => d ≠ c))).trans (List.filter_sublist s)

theorem remove_invalid_chars_sublist (s : List Char) :
    List.Sublist (remove_invalid_chars s) s :=
  foldl_filter_sublist invalid_chars s

theorem head?_dropWhile_not (p : Char → Bool) (l : List Char) :
    ∀ c, (l.dropWhile p).head? = some c → p c = false := by
  induction l with
  | nil =>
    intro c hc
    simp [List.dropWhile] at hc
  | cons a rest ih =>
    intro c hc
    by_cases ha : p a
    · rw [List.dropWhile_cons, if_pos ha] at hc
      exact ih c hc
    · rw [List.dropWhile_cons, if_neg ha] at hc
      obtain rfl : a = c := by simpa using hc
      cases hb : p a
      · rfl
      · exact absurd hb ha

theorem getLast?_dropWhile_eq (p : Char → Bool) (l : List Char) :
    l.dropWhile p ≠ [] → (l.dropWhile p).getLast? = l.getLast? := by
  induction l with
  | nil =>
    intro h
    simp [List.dropWhile] at h
  | cons a rest ih =>
    intro h
    by_cases ha : p a
    · rw [List.dropWhile_cons, if_pos ha] at h ⊢
      rw [ih h]
      have hrest : rest ≠ [] := by
        intro hc
        subst hc
        simp [List.dropWhile] at h
      rcases rest with _ | ⟨b, t⟩
      · exact absurd rfl hrest
      · rw [List.getLast?_cons_cons]
    · rw [List.dropWhile_cons, if_neg ha]

theorem pyStrip_head (cs : List Char) (c : Char)
    (h : (pyStrip cs).head? = some c) : c ∉ strip_chars := by
  simp only [pyStrip] at h
  rw [List.head?_reverse] at h
  have hne : ((cs.dropWhile (fun c => c ∈ strip_chars)).reverse.dropWhile
      (fun c => c ∈ strip_chars)) ≠ [] := by
    intro hc
    rw [hc] at h
    cases h
  rw [getLast?_dropWhile_eq _ _ hne, List.getLast?_reverse] at h
  have := head?_dropWhile_not (fun c => decide (c ∈ strip_chars)) _ c h
  simpa using this

theorem pyStrip_getLast (cs : List Char) (c : Char)
    (h : (pyStrip cs).getLast? = some c) : c ∉ strip_chars := by
  simp only [pyStrip] at h
  rw [List.getLast?_reverse] at h
  have := head?_dropWhile_not (fun c => decide (c ∈ strip_chars)) _ c h
  simpa using this

theorem pyStrip_subset (cs : List Char) : ∀ c ∈ pyStrip cs, c ∈ cs := by
  intro c hc
  simp only [pyStrip, List.mem_reverse] at hc
  have h1 := (List.dropWhile_sublist
    (fun c => decide (c ∈ strip_chars))).subset hc
  rw [List.mem_reverse] at h1
  exact (List.dropWhile_sublist (fun c => decide (c ∈ strip_chars))).subset h1

theorem pyStrip_length_le (cs : List Char) : (pyStrip cs).length ≤ cs.length := by
  simp only [pyStrip, List.length_reverse]
  calc ((cs.dropWhile fun c => c ∈ strip_chars).reverse.dropWhile
        fun c => c ∈ strip_chars).length
      ≤ (cs.dropWhile fun c => c ∈ strip_chars).reverse.length :=
        (List.dropWhile_sublist _).length_le
    _ = (cs.dropWhile fun c => c ∈ strip_chars).length := List.length_reverse _
    _ ≤ cs.length := (List.dropWhile_sublist _).length_le

set_option maxHeartbeats 1000000 in
/-- **C4** (corrected): sanitization always returns a string of length at
most 100 containing no filesystem-illegal character and no space, never
beginning with a dot or space; when no truncation occurs (input of at
most 100 characters) it also never ends with a dot or space.  The
original claim fails in two ways (see the counterexample): the result can
be empty, and truncation of a long title can leave a trailing dot. -/
theorem sanitize_filename_bounded (s : String) :
    (sanitize_filename s).toList.length ≤ 100 ∧
    (∀ c ∈ (sanitize_filename s).toList, c ∉ invalid_chars) ∧
    (∀ c ∈ (sanitize_filename s).toList, c ≠ ' ') ∧
    (∀ c, (sanitize_filename s).toList.head? = some c → c ∉ strip_chars) ∧
    (s.toList.length ≤ 100 →
      ∀ c, (sanitize_filename s).toList.getLast? = some c → c ∉ strip_chars) := by
  have hrepr : (sanitize_filename s).toList = sanitizeChars s.toList := rfl
  rw [hrepr]
  simp only [sanitizeChars]
  set s1 := remove_invalid_chars s.toList with hs1
  set s2 := pyStrip s1 with hs2
  set s3 := s2.map (fun c => if c = ' ' then '_' else c) with hs3
  have hmem3 : ∀ c ∈ s3, ∃ d ∈ s2, (if d = ' ' then '_' else d) = c := by
    intro c hc
    exact List.mem_map.mp hc
  have himg : ∀ c ∈ s3, c ∉ invalid_chars ∧ c ≠ ' ' := by
    intro c hc
    obtain ⟨d, hd, hdc⟩ := hmem3 c hc
    have hd1 : d ∈ s1 := pyStrip_subset s1 d hd
    have hd2 : d ∉ invalid_chars := (remove_invalid_chars_mem s.toList d).mp hd1 |>.2
    by_cases hsp : d = ' '
    · rw [if_pos hsp] at hdc
      subst hdc
      exact ⟨by decide, by decide⟩
    · rw [if_neg hsp] at hdc
      subst hdc
      exact ⟨hd2, hsp⟩
  have hmemres : ∀ c ∈ (if s3.length > 100 then s3.take 100 else s3), c ∈ s3 := by
    intro c hc
    split at hc
    · exact (List.take_sublist 100 s3).subset hc
    · exact hc
  refine ⟨?_, ?_, ?_, ?_, ?_⟩
  · split
    · simp [List.length_take]
    · next h =>
      omega
  · intro c hc
    exact (himg c (hmemres c hc)).1
  · intro c hc
    exact (himg c (hmemres c hc)).2
  · intro c hc
    have hc3 : s3.head? = some c := by
      split at hc
      · next h =>
        rw [List.head?_take] at hc
        simp only [if_neg (by omega : ¬ (100 : Nat) = 0)] at hc
        exact hc
      · exact hc
    rw [hs3, List.head?_map] at hc3
    rcases hd : s2.head? with _ | d
    · rw [hd] at hc3
      cases hc3
    · rw [hd] at hc3
      have hds : d ∉ strip_chars := pyStrip_head s1 d hd
      obtain rfl : (if d = ' ' then '_' else d) = c := by
        simpa using hc3
      by_cases hsp : d = ' '
      · rw [if_pos hsp]
        decide
      · rw [if_neg hsp]
        exact hds
  · intro hslen c hc
    have hlen3 : s3.length ≤ 100 := by
      have h1 : s1.length ≤ s.toList.length :=
        (remove_invalid_chars_sublist s.toList).length_le
      have h2 : s2.length ≤ s1.length := pyStrip_length_le s1
      have h3 : s3.length = s2.length := List.length_map _ _
      omega
    rw [if_neg (by omega)] at hc
    rw [hs3, List.getLast?_map] at hc
    rcases hd : s2.getLast? with _ | d
    · rw [hd] at hc
      cases hc
    · rw [hd] at hc
      have hds : d ∉ strip_chars := pyStrip_getLast s1 d hd
      obtain rfl : (if d = ' ' then '_' else d) = c := by
        simpa using hc
      by_cases hsp : d = ' '
      · rw [if_pos hsp]
        decide
      · rw [if_neg hsp]
        exact hds

/-- Witness for C4: the spec's scenario title `"My: Video / Test???"`. -/
theorem sanitize_filename_bounded_witness :
    ((String.mk ['M', 'y', ':', ' ', 'V', 'i', 'd', 'e', 'o', ' ', '/', ' ',
      'T', 'e', 's', 't', '?', '?', '?']).toList.length ≤ 100) ∧
    ((sanitize_filename (String.mk ['M', 'y', ':', ' ', 'V', 'i', 'd', 'e',
        'o', ' ', '/', ' ', 'T', 'e', 's', 't', '?', '?', '?'])).toList.length ≤ 100 ∧
    (∀ c ∈ (sanitize_filename (String.mk ['M', 'y', ':', ' ', 'V', 'i', 'd',
        'e', 'o', ' ', '/', ' ', 'T', 'e', 's', 't', '?', '?', '?'])).toList,
      c ∉ invalid_chars) ∧
    (∀ c ∈ (sanitize_filename (String.mk ['M', 'y', ':', ' ', 'V', 'i', 'd',
        'e', 'o', ' ', '/', ' ', 'T', 'e', 's', 't', '?', '?', '?'])).toList,
      c ≠ ' ') ∧
    (∀ c, (sanitize_filename (String.mk ['M', 'y', ':', ' ', 'V', 'i', 'd',
        'e', 'o', ' ', '/', ' ', 'T', 'e', 's', 't', '?', '?', '?'])).toList.head?
        = some c → c ∉ strip_chars) ∧
    ((String.mk ['M', 'y', ':', ' ', 'V', 'i', 'd', 'e', 'o', ' ', '/', ' ',
        'T', 'e', 's', 't', '?', '?', '?']).toList.length ≤ 100 →
      ∀ c, (sanitize_filename (String.mk ['M', 'y', ':', ' ', 'V', 'i', 'd',
        'e', 'o', ' ', '/', ' ', 'T', 'e', 's', 't', '?', '?', '?'])).toList.getLast?
        = some c → c ∉ strip_chars)) :=
  ⟨by decide,
    sanitize_filename_bounded (String.mk ['M', 'y', ':', ' ', 'V', 'i', 'd',
      'e', 'o', ' ', '/', ' ', 'T', 'e', 's', 't', '?', '?', '?'])⟩

set_option maxHeartbeats 1000000 in
/-- Counterexample to C4 as stated: the empty title sanitizes to the
empty string (not non-empty), and a 110-character title whose 100th
character is a dot sanitizes — after truncation — to a string ending in
a dot (a trailing separator). -/
theorem sanitize_filename_cex :
    sanitize_filename "" = "" ∧
    (sanitize_filename (String.mk (List.replicate 99 'a'
      ++ '.' :: List.replicate 10 'b'))).toList.getLast? = some '.' := by
  constructor
  · rfl
  · decide

/-!
## Worker-count configuration (claim C8)
-/

/-- **C8** (corrected): without an explicit `--workers` override, the
worker count actually handed to the pool is the uncapped CPU count —
`main` unconditionally overwrites the `BatchProcessor.__init__` value
`min(cpu_count, N)` — while a positive explicit override is used as
given; when there are fewer URLs than CPUs the value used strictly
exceeds the capped default the claim describes. -/
theorem worker_count_spec (w cpu n : Nat) :
    main_pool_workers 0 cpu n = cpu ∧
    (0 < w → main_pool_workers w cpu n = w) ∧
    BatchProcessor_init_num_workers cpu n = min cpu n ∧
    (n < cpu → BatchProcessor_init_num_workers cpu n < main_pool_workers 0 cpu n) := by
  refine ⟨?_, ?_, rfl, ?_⟩
  · simp [main_pool_workers, main_num_workers]
  · intro hw
    simp [main_pool_workers, main_num_workers, hw]
  · intro h
    simp only [main_pool_workers, main_num_workers, BatchProcessor_init_num_workers,
      if_neg (by omega : ¬ 0 < 0)]
    omega

/-- Witness for C8 at cpu = 8 and a 2-URL batch, override 3. -/
theorem worker_count_spec_witness :
    (0 < 3 ∧ 2 < 8) ∧ main_pool_workers 3 8 2 = 3 ∧
    BatchProcessor_init_num_workers 8 2 < main_pool_workers 0 8 2 :=
  ⟨⟨by decide, by decide⟩, (worker_count_spec 3 8 2).2.1 (by decide),
    (worker_count_spec 3 8 2).2.2.2 (by decide)⟩

/-- Counterexample to C8 as stated: with no caller override, 8 CPUs and
2 input URLs, the pool is created with 8 workers, not the claimed
`min(cpu_count, N) = 2`. -/
theorem worker_count_cex :
    main_pool_workers 0 8 2 = 8 ∧
    BatchProcessor_init_num_workers 8 2 = 2 ∧
    main_pool_workers 0 8 2 ≠ BatchProcessor_init_num_workers 8 2 := by
  decide

/-!
## Process exit status (claim C9)
-/

/-- **C9** (corrected): the batch tool exits non-zero exactly when
dependencies are missing, the interval is non-positive, or the batch
source yields zero usable URLs — a failing sole job of a `--url` run
still exits 0; the single-video tool exits non-zero exactly when the
interval is non-positive, dependencies are missing, the metadata fetch
fails, the download fails, the extraction call raises an uncaught
exception (it returns no value — as happens when the reported duration
is 0 and the first grab succeeds), or it returns zero screenshots. -/
theorem exit_status_characterization (depsOk : Bool) (interval : ℤ)
    (inp : CliInput) (sole : Bool) (infoOk downloadOk : Bool)
    (ext : Option (Nat × List Nat)) :
    (batch_main_exit depsOk interval inp sole ≠ 0 ↔
      (depsOk = false ∨ interval ≤ 0 ∨
        ∃ lines, inp = CliInput.batch lines ∧ read_urls_from_file lines = [])) ∧
    (screenshots_main_exit interval depsOk infoOk downloadOk ext ≠ 0 ↔
      (interval ≤ 0 ∨ depsOk = false ∨ infoOk = false ∨ downloadOk = false ∨
        ext = none ∨ ∃ files, ext = some (0, files))) := by
  constructor
  · rcases inp with u | lines
    · by_cases hd : depsOk = false
      · simp [batch_main_exit, hd]
      · by_cases hi : interval ≤ 0 <;> simp [batch_main_exit, hd, hi]
    · by_cases hd : depsOk = false
      · simp [batch_main_exit, hd]
      · by_cases hi : interval ≤ 0
        · simp [batch_main_exit, hd, hi]
        · by_cases he : read_urls_from_file lines = []
          · simp [batch_main_exit, hd, hi, List.isEmpty_iff, he]
          · simp [batch_main_exit, hd, hi, List.isEmpty_iff, he]
  · by_cases h1 : interval ≤ 0
    · simp [screenshots_main_exit, h1]
    · by_cases h2 : depsOk = false
      · simp [screenshots_main_exit, h1, h2]
      · by_cases h3 : infoOk = false
        · simp [screenshots_main_exit, h1, h2, h3]
        · by_cases h4 : downloadOk = false
          · simp [screenshots_main_exit, h1, h2, h3, h4]
          · rcases ext with _ | ⟨c, files⟩
            · simp [screenshots_main_exit, h1, h2, h3, h4]
            · by_cases h5 : c = 0 <;>
                simp [screenshots_main_exit, h1, h2, h3, h4, h5]

/-- Counterexample to C9 as stated: with tools present and interval 5,
the batch tool's single-URL run whose sole job fails still exits 0 (the
claim requires non-zero); with interval 0 — a case the claim's list does
not contain — it exits 1; and a single-video run over a 0-duration
source whose first frame grab succeeds exits non-zero through the
uncaught ZeroDivisionError, again outside the claim's list. -/
theorem exit_status_cex :
    batch_main_exit true 5 (CliInput.url "u") false = 0 ∧
    batch_main_exit true 0 (CliInput.url "u") true = 1 ∧
    (extract_high_quality_screenshots (fun _ => true) (0 : ℚ) 10
      (by norm_num)).2 = none ∧
    screenshots_main_exit 5 true true true
      ((extract_high_quality_screenshots (fun _ => true) (0 : ℚ) 10
        (by norm_num)).2) = 1 := by
  have hcrash := extract_hq_zero_crash (fun _ => true) 10 (by norm_num) rfl
  refine ⟨by decide, by decide, ?_, ?_⟩
  · rw [hcrash]
  · rw [hcrash]
    decide

/-- Witness for C9 at concrete inputs (a comment-only batch file, and a
single-video run that extracted 3 screenshots). -/
theorem exit_status_characterization_witness :
    (batch_main_exit true 5 (CliInput.batch ["# c", ""]) true ≠ 0 ↔
      ((true : Bool) = false ∨ (5 : ℤ) ≤ 0 ∨
        ∃ lines, CliInput.batch ["# c", ""] = CliInput.batch lines ∧
          read_urls_from_file lines = [])) ∧
    (screenshots_main_exit 5 true true true (some (3, [0, 10, 20])) ≠ 0 ↔
      ((5 : ℤ) ≤ 0 ∨ (true : Bool) = false ∨ (true : Bool) = false ∨
        (true : Bool) = false ∨ (some (3, [0, 10, 20])
            : Option (Nat × List Nat)) = none ∨
        ∃ files, (some (3, [0, 10, 20]) : Option (Nat × List Nat))
          = some (0, files))) :=
  exit_status_characterization true 5 (CliInput.batch ["# c", ""]) true true true
    (some (3, [0, 10, 20]))
